import Mathlib

/-!
# Encoded blob store (disperser/batcher/encoded_blob_store.go)

A shallow embedding of the in-memory store that the batcher uses to track encoding
requests and encoding results, followed by theorems about its operations.

Modelling conventions.

* A Go `map[K]V` is an association list `List (K × V)`; `mapGet` returns the first binding
  of a key, `mapSet` and `mapDelete` drop every binding of the key they touch.  Lists whose
  keys are pairwise distinct (`mapWF`) are the images of Go maps.  A Go `range` over a map
  visits the bindings in an unspecified order; the embedding visits them in list order and
  the theorems speak about the outcome up to permutation.
* A `*T` that the code dereferences without a nil check is an `Option T` and the dereference
  of `none` is a run-time panic, which a function that can panic reports through `Outcome`.
  A non-nil pointer is identified with the value it points to.
* `uint64` values are natural numbers below `2 ^ 64`; additions and subtractions on them are
  written with an explicit `% 2 ^ 64`.
* The reader/writer lock is not represented: every operation is one atomic transition.
-/

namespace Batcher

/-! ## Data model -/

/-- Go: `type requestID string`. -/
abbrev requestID := String

/-- Go: `type status uint` with the two declared constants `PendingDispersal` (0) and
`PendingConfirmation` (1). -/
inductive status where
  | PendingDispersal
  | PendingConfirmation
  deriving DecidableEq, Repr

/-- Modelled from the spec: `disperser.BlobKey` is declared outside the given sources.  A
blob key is a pair of hash values, kept here as strings of any length; that the hashes of
two keys have the same width is a hypothesis of the one theorem that needs it. -/
structure BlobKey where
  BlobHash : String
  MetadataHash : String
  deriving DecidableEq, Repr

/-- Modelled from the spec: `disperser.BlobMetadata` is declared outside the given sources.
The store reads only its two hash fields; the remaining descriptive fields are carried as
one uninterpreted value. -/
structure BlobMetadata where
  BlobHash : String
  MetadataHash : String
  Descriptive : Nat
  deriving DecidableEq, Repr

/-- Modelled from the spec: `core.BlobQuorumInfo` is declared outside the given sources.
The store reads only `QuorumID` (a `uint8`); the security parameters of the quorum are
carried as one uninterpreted value. -/
structure BlobQuorumInfo where
  QuorumID : Nat
  SecurityParams : Nat
  deriving DecidableEq, Repr

/-- Modelled from the spec: `encoding.Frame` is declared outside the given sources.  A chunk
carries a sequence of coefficients (field elements, kept here as naturals) and a proof. -/
structure Frame where
  Coeffs : List Nat
  Proof : Nat
  deriving DecidableEq, Repr

/-- Go: `EncodingResult`.  `BlobMetadata`, `BlobQuorumInfo` and the elements of `Chunks` are
pointers that the store dereferences; `Commitment` and `Assignments` are never inspected by
the store and are carried as uninterpreted values. -/
structure EncodingResult where
  BlobMetadata : Option BlobMetadata
  ReferenceBlockNumber : Nat
  BlobQuorumInfo : Option BlobQuorumInfo
  Commitment : Nat
  Chunks : List (Option Frame)
  Assignments : List (Nat × Nat)
  Status : status
  deriving DecidableEq, Repr

/-- Go: `encodedBlobStore` without the lock and the logger. -/
structure encodedBlobStore where
  requested : List requestID
  encoded : List (requestID × EncodingResult)
  encodedResultSize : Nat
  deriving DecidableEq, Repr

/-- Result of an operation that may dereference a nil pointer: either the run-time panics,
or the operation returns with a final store and a return value. -/
inductive Outcome (α : Type) where
  | panicked : Outcome α
  | ret : encodedBlobStore → α → Outcome α
  deriving DecidableEq, Repr

/-! ## Go maps as association lists -/

/-- Go: `v, ok := m[k]`. -/
def mapGet {β : Type} (k : requestID) : List (requestID × β) → Option β
  | [] => none
  | (k', v) :: rest => if k' = k then some v else mapGet k rest

/-- Go: `delete(m, k)`. -/
def mapDelete {β : Type} (k : requestID) (m : List (requestID × β)) : List (requestID × β) :=
  m.filter (fun e => decide (e.1 ≠ k))

/-- Go: `m[k] = v`. -/
def mapSet {β : Type} (k : requestID) (v : β) (m : List (requestID × β)) :
    List (requestID × β) :=
  (k, v) :: mapDelete k m

/-- Representation invariant of a Go map: no key is bound twice. -/
def mapWF {β : Type} (m : List (requestID × β)) : Prop :=
  (m.map Prod.fst).Nodup

/-- Go: `s[k] = struct{}{}` on a `map[requestID]struct{}`. -/
def setAdd (k : requestID) (s : List requestID) : List requestID :=
  k :: s.filter (fun x => decide (x ≠ k))

/-- Go: `delete(s, k)` on a `map[requestID]struct{}`. -/
def setDelete (k : requestID) (s : List requestID) : List requestID :=
  s.filter (fun x => decide (x ≠ k))

/-! ## uint64 arithmetic -/

/-- Go: `a + b` on `uint64`. -/
def addU64 (a b : Nat) : Nat := (a + b) % 2 ^ 64

/-- Go: `a - b` on `uint64` (wraps below zero). -/
def subU64 (a b : Nat) : Nat := (a % 2 ^ 64 + 2 ^ 64 - b % 2 ^ 64) % 2 ^ 64

/-! ## Key derivation and byte footprint -/

/-- Modelled from the spec: `disperser.BlobKey.String` is declared outside the given sources.
The key is rendered by concatenating its two hashes, separated the same way `getRequestID`
separates the key from the quorum. -/
def BlobKey.String (key : BlobKey) : String :=
  key.BlobHash ++ "-" ++ key.MetadataHash

/-- Go: `getRequestID`, i.e. `fmt.Sprintf("%s-%d", key.String(), quorumID)`. -/
def getRequestID (key : BlobKey) (quorumID : Nat) : requestID :=
  key.String ++ "-" ++ Nat.repr quorumID

/-- Go: the loop of `getChunksSize`; `size` is the running `uint64` total.  A nil chunk makes
`chunk.Coeffs` panic (`none`). -/
def chunksLoop : List (Option Frame) → Nat → Option Nat
  | [], size => some size
  | none :: _, _ => none
  | some chunk :: rest, size => chunksLoop rest (addU64 size ((chunk.Coeffs.length * 256) % 2 ^ 64))

/-- Go: `getChunksSize`; `none` is a panic on a nil chunk. -/
def getChunksSize (result : EncodingResult) : Option Nat :=
  (chunksLoop result.Chunks 0).map (fun size => addU64 size (256 * 2))

/-! ## Store operations -/

/-- Go: `newEncodedBlobStore`. -/
def newEncodedBlobStore : encodedBlobStore :=
  { requested := [], encoded := [], encodedResultSize := 0 }

/-- Go: `PutEncodingRequest`. -/
def PutEncodingRequest (e : encodedBlobStore) (blobKey : BlobKey) (quorumID : Nat) :
    encodedBlobStore :=
  { e with requested := setAdd (getRequestID blobKey quorumID) e.requested }

/-- Go: `HasEncodingRequested`. -/
def HasEncodingRequested (e : encodedBlobStore) (blobKey : BlobKey) (quorumID : Nat)
    (referenceBlockNumber : Nat) : Bool :=
  if getRequestID blobKey quorumID ∈ e.requested then true
  else
    match mapGet (getRequestID blobKey quorumID) e.encoded with
    | some res =>
      if res.Status = status.PendingConfirmation
          ∨ res.ReferenceBlockNumber = referenceBlockNumber then true
      else false
    | none => false

/-- Go: `DeleteEncodingRequest`. -/
def DeleteEncodingRequest (e : encodedBlobStore) (blobKey : BlobKey) (quorumID : Nat) :
    encodedBlobStore :=
  if getRequestID blobKey quorumID ∈ e.requested then
    { e with requested := setDelete (getRequestID blobKey quorumID) e.requested }
  else e

/-- Go: `PutEncodingResult`.  The returned `Option String` is the Go `error` (`none` is
`nil`). -/
def PutEncodingResult (e : encodedBlobStore) (result : EncodingResult) :
    Outcome (Option String) :=
  match result.BlobMetadata with
  | none => Outcome.panicked
  | some metadata =>
    match result.BlobQuorumInfo with
    | none => Outcome.panicked
    | some quorumInfo =>
      let blobKey : BlobKey :=
        { BlobHash := metadata.BlobHash, MetadataHash := metadata.MetadataHash }
      let id := getRequestID blobKey quorumInfo.QuorumID
      if id ∈ e.requested then
        match mapGet id e.encoded with
        | some _ =>
          Outcome.ret
            { e with encoded := mapSet id result e.encoded,
                     requested := setDelete id e.requested } none
        | none =>
          match getChunksSize result with
          | none => Outcome.panicked
          | some size =>
            Outcome.ret
              { requested := setDelete id e.requested,
                encoded := mapSet id result e.encoded,
                encodedResultSize := addU64 e.encodedResultSize size } none
      else
        Outcome.ret e (some ("PutEncodedBlob: no such key (" ++ id ++ ") in requested set"))

/-- Go: `GetEncodingResult`; `Except.error` carries the Go `error`. -/
def GetEncodingResult (e : encodedBlobStore) (blobKey : BlobKey) (quorumID : Nat) :
    Except String EncodingResult :=
  match mapGet (getRequestID blobKey quorumID) e.encoded with
  | none =>
    Except.error
      ("GetEncodedBlob: no such key (" ++ getRequestID blobKey quorumID ++ ") in encoded set")
  | some res => Except.ok res

/-- Go: `DeleteEncodingResult`. -/
def DeleteEncodingResult (e : encodedBlobStore) (blobKey : BlobKey) (quorumID : Nat) :
    Outcome Unit :=
  match mapGet (getRequestID blobKey quorumID) e.encoded with
  | none => Outcome.ret e ()
  | some encodedResult =>
    match getChunksSize encodedResult with
    | none => Outcome.panicked
    | some size =>
      Outcome.ret
        { e with encoded := mapDelete (getRequestID blobKey quorumID) e.encoded,
                 encodedResultSize := subU64 e.encodedResultSize size } ()

/-- Go: the `for k, encodedResult := range e.encoded` loop of
`GetNewAndDeleteStaleEncodingResults`.  Given the bindings still to visit and the current
counter, it returns the bindings that stay in the map, the fetched results and the final
counter; `none` is a panic inside `getChunksSize`.  Since a Go map binds `k` once,
`delete(e.encoded, k)` removes exactly the binding being visited. -/
def sweepLoop (blockNumber : Nat) :
    List (requestID × EncodingResult) → Nat →
      Option (List (requestID × EncodingResult) × List EncodingResult × Nat)
  | [], size => some ([], [], size)
  | (k, encodedResult) :: rest, size =>
    if encodedResult.Status = status.PendingConfirmation then
      (sweepLoop blockNumber rest size).map
        (fun out => ((k, encodedResult) :: out.1, out.2.1, out.2.2))
    else if encodedResult.ReferenceBlockNumber = blockNumber then
      (sweepLoop blockNumber rest size).map
        (fun out => ((k, encodedResult) :: out.1, encodedResult :: out.2.1, out.2.2))
    else if encodedResult.ReferenceBlockNumber < blockNumber then
      match getChunksSize encodedResult with
      | none => none
      | some n => sweepLoop blockNumber rest (subU64 size n)
    else
      (sweepLoop blockNumber rest size).map
        (fun out => ((k, encodedResult) :: out.1, out.2.1, out.2.2))

/-- Go: `GetNewAndDeleteStaleEncodingResults`. -/
def GetNewAndDeleteStaleEncodingResults (e : encodedBlobStore) (blockNumber : Nat) :
    Outcome (List EncodingResult) :=
  match sweepLoop blockNumber e.encoded e.encodedResultSize with
  | none => Outcome.panicked
  | some out =>
    Outcome.ret { e with encoded := out.1, encodedResultSize := out.2.2 } out.2.1

/-- Go: `GetEncodedResultSize`. -/
def GetEncodedResultSize (e : encodedBlobStore) : Nat × Nat :=
  (e.encoded.length, e.encodedResultSize)

/-- Go: `e.encoded[requestID].Status = PendingConfirmation`, an update through the stored
pointer. -/
def markPending (id : requestID) :
    List (requestID × EncodingResult) → List (requestID × EncodingResult)
  | [] => []
  | (k, r) :: rest =>
    if k = id then (k, { r with Status := status.PendingConfirmation }) :: markPending id rest
    else (k, r) :: markPending id rest

/-- Go: `MarkEncodedResultPendingConfirmation`; the `Option String` is the Go `error`. -/
def MarkEncodedResultPendingConfirmation (e : encodedBlobStore) (blobKey : BlobKey)
    (quorumID : Nat) : encodedBlobStore × Option String :=
  match mapGet (getRequestID blobKey quorumID) e.encoded with
  | none =>
    (e, some ("MarkEncodedBlobPendingConfirmation: no such key ("
      ++ getRequestID blobKey quorumID ++ ") in encoded set"))
  | some _ =>
    ({ e with encoded := markPending (getRequestID blobKey quorumID) e.encoded }, none)

/-! ## Sequences of calls -/

/-- One call of a state-changing store operation together with its arguments. -/
inductive Call where
  | putEncodingRequest (blobKey : BlobKey) (quorumID : Nat)
  | putEncodingResult (result : EncodingResult)
  | deleteEncodingRequest (blobKey : BlobKey) (quorumID : Nat)
  | deleteEncodingResult (blobKey : BlobKey) (quorumID : Nat)
  | markEncodedResultPendingConfirmation (blobKey : BlobKey) (quorumID : Nat)
  | getNewAndDeleteStaleEncodingResults (blockNumber : Nat)
  deriving DecidableEq, Repr

/-- Store left by an operation, `none` when it panicked. -/
def Outcome.store {α : Type} : Outcome α → Option encodedBlobStore
  | Outcome.panicked => none
  | Outcome.ret e _ => some e

/-- Store after one call, `none` when the call panics. -/
def step (e : encodedBlobStore) : Call → Option encodedBlobStore
  | Call.putEncodingRequest blobKey quorumID => some (PutEncodingRequest e blobKey quorumID)
  | Call.putEncodingResult result => (PutEncodingResult e result).store
  | Call.deleteEncodingRequest blobKey quorumID =>
    some (DeleteEncodingRequest e blobKey quorumID)
  | Call.deleteEncodingResult blobKey quorumID => (DeleteEncodingResult e blobKey quorumID).store
  | Call.markEncodedResultPendingConfirmation blobKey quorumID =>
    some (MarkEncodedResultPendingConfirmation e blobKey quorumID).1
  | Call.getNewAndDeleteStaleEncodingResults blockNumber =>
    (GetNewAndDeleteStaleEncodingResults e blockNumber).store

/-- Store after a sequence of calls, `none` when one of them panics. -/
def run (e : encodedBlobStore) : List Call → Option encodedBlobStore
  | [] => some e
  | c :: cs =>
    match step e c with
    | none => none
    | some e1 => run e1 cs

/-- Sum of the footprints of the stored results (`none` when a footprint is undefined because
a stored chunk is nil). -/
def footprintSum : List (requestID × EncodingResult) → Option Nat
  | [] => some 0
  | (_, r) :: rest =>
    match getChunksSize r, footprintSum rest with
    | some n, some total => some (n + total)
    | _, _ => none

/-! ## Vocabulary of the specification -/

/-- Request identity under which `PutEncodingResult` files a result: the key built from the
hashes of its metadata and the quorum of its quorum info (`none` when either pointer is
nil). -/
def resultRequestID (result : EncodingResult) : Option requestID :=
  match result.BlobMetadata, result.BlobQuorumInfo with
  | some metadata, some quorumInfo =>
    some (getRequestID
      { BlobHash := metadata.BlobHash, MetadataHash := metadata.MetadataHash }
      quorumInfo.QuorumID)
  | _, _ => none

/-- Fresh at `blockNumber`: pending dispersal and encoded against exactly that block. -/
def isFresh (blockNumber : Nat) (r : EncodingResult) : Bool :=
  decide (r.Status = status.PendingDispersal) && decide (r.ReferenceBlockNumber = blockNumber)

/-- Stale at `blockNumber`: pending dispersal and encoded against an older block. -/
def isStale (blockNumber : Nat) (r : EncodingResult) : Bool :=
  decide (r.Status = status.PendingDispersal) && decide (r.ReferenceBlockNumber < blockNumber)

/-- Every `PutEncodingRequest` of the sequence is issued for an identity that has no stored
result at the time of the call. -/
def requestsOnlyUnencoded (e : encodedBlobStore) : List Call → Bool
  | [] => true
  | c :: cs =>
    (match c with
      | Call.putEncodingRequest blobKey quorumID =>
        (mapGet (getRequestID blobKey quorumID) e.encoded).isNone
      | _ => true)
    && (match step e c with
      | none => true
      | some e1 => requestsOnlyUnencoded e1 cs)

/-- No identity is at once in the in-flight set and in the result map. -/
def exclusive (e : encodedBlobStore) : Prop :=
  ∀ id, id ∈ e.requested → mapGet id e.encoded = none

/-- Successive sweeps at the given block numbers: the store left and the results returned by
each call, in order (`none` when a call panics). -/
def sweepTrace (e : encodedBlobStore) :
    List Nat → Option (List (encodedBlobStore × List EncodingResult))
  | [] => some []
  | b :: bs =>
    match GetNewAndDeleteStaleEncodingResults e b with
    | Outcome.panicked => none
    | Outcome.ret e1 fetched => (sweepTrace e1 bs).map (fun tr => (e1, fetched) :: tr)

/-- Store `e1` differs from `e` only by the removal of some results that were pending
dispersal, whose footprints have been subtracted from the counter. -/
def sweptFrom (e e1 : encodedBlobStore) : Prop :=
  e1.requested = e.requested ∧
  ∃ removed total,
    e.encoded.Perm (e1.encoded ++ removed)
      ∧ (∀ kr ∈ removed, kr.2.Status = status.PendingDispersal)
      ∧ footprintSum removed = some total
      ∧ e1.encodedResultSize = subU64 e.encodedResultSize total

/-! ## Sample values -/

/-- Blob key used in the examples. -/
def keyA : BlobKey := { BlobHash := "a", MetadataHash := "m" }

/-- Another blob key used in the examples. -/
def keyB : BlobKey := { BlobHash := "b", MetadataHash := "m" }

/-- Result for `(blobKey, 0)` at the given block with chunks of the given lengths, pending
dispersal. -/
def sampleResult (blobKey : BlobKey) (blockNumber : Nat) (lengths : List Nat) :
    EncodingResult :=
  { BlobMetadata :=
      some { BlobHash := blobKey.BlobHash, MetadataHash := blobKey.MetadataHash,
             Descriptive := 0 },
    ReferenceBlockNumber := blockNumber,
    BlobQuorumInfo := some { QuorumID := 0, SecurityParams := 0 },
    Commitment := 0,
    Chunks := lengths.map (fun n => some { Coeffs := List.replicate n 0, Proof := 0 }),
    Assignments := [],
    Status := status.PendingDispersal }

/-- Blob keys for the four-result sweep example. -/
def keyC : BlobKey := { BlobHash := "c", MetadataHash := "m" }

/-- Fourth blob key of the sweep example. -/
def keyD : BlobKey := { BlobHash := "d", MetadataHash := "m" }

/-- Store holding results at blocks 5, 10, 10 and 15, all pending dispersal, with the counter
equal to the sum of their footprints. -/
def sweepExample : encodedBlobStore :=
  { requested := [],
    encoded :=
      [("a-m-0", sampleResult keyA 5 [1]), ("b-m-0", sampleResult keyB 10 [2]),
       ("c-m-0", sampleResult keyC 10 []), ("d-m-0", sampleResult keyD 15 [1, 1])],
    encodedResultSize := 768 + 1024 + 512 + 1024 }

/-- The result for `(a, 0)` of block 5 after it has been marked pending confirmation. -/
def confirmedResult : EncodingResult :=
  { sampleResult keyA 5 [1] with Status := status.PendingConfirmation }

/-- Store holding a result that is pending confirmation next to two results that are pending
dispersal, with the counter equal to the sum of the three footprints. -/
def pendingExample : encodedBlobStore :=
  { requested := [],
    encoded :=
      [("a-m-0", confirmedResult), ("b-m-0", sampleResult keyB 10 [2]),
       ("c-m-0", sampleResult keyC 7 [])],
    encodedResultSize := 768 + 1024 + 512 }

/-- Store holding one result, for `(b, 0)` at block 50 without chunks, and counting its 512
bytes. -/
def staleNeighbour : encodedBlobStore :=
  { requested := [], encoded := [("b-m-0", sampleResult keyB 50 [])],
    encodedResultSize := 512 }

/-! ## Further vocabulary -/

/-- Number denoted by a list of decimal digit characters, most significant digit first. -/
def digitsValue (ds : List Char) : Nat :=
  ds.foldl (fun acc c => 10 * acc + (c.toNat - 48)) 0

/-- No chunk of the result is a nil pointer. -/
def chunksNonNil (r : EncodingResult) : Prop :=
  ∀ ch ∈ r.Chunks, ch ≠ none

/-- Go: the two modes of `sync.RWMutex`, `RLock` (shared) and `Lock` (exclusive). -/
inductive LockMode where
  | shared
  | exclusive
  deriving DecidableEq, Repr

/-- The nine methods of `encodedBlobStore`. -/
inductive Operation where
  | PutEncodingRequest
  | HasEncodingRequested
  | DeleteEncodingRequest
  | PutEncodingResult
  | GetEncodingResult
  | DeleteEncodingResult
  | GetNewAndDeleteStaleEncodingResults
  | GetEncodedResultSize
  | MarkEncodedResultPendingConfirmation
  deriving DecidableEq, Repr

/-- Go: the lock call that opens each method (`e.mu.Lock()` or `e.mu.RLock()`, released by
the deferred unlock when the method returns). -/
def lockMode : Operation → LockMode
  | Operation.PutEncodingRequest => LockMode.exclusive
  | Operation.HasEncodingRequested => LockMode.shared
  | Operation.DeleteEncodingRequest => LockMode.shared
  | Operation.PutEncodingResult => LockMode.exclusive
  | Operation.GetEncodingResult => LockMode.shared
  | Operation.DeleteEncodingResult => LockMode.exclusive
  | Operation.GetNewAndDeleteStaleEncodingResults => LockMode.exclusive
  | Operation.GetEncodedResultSize => LockMode.shared
  | Operation.MarkEncodedResultPendingConfirmation => LockMode.exclusive

/-- Every `PutEncodingResult` of the sequence that finds its in-flight marker is issued for
an identity that has no stored result at the time of the call. -/
def noOverwrite (e : encodedBlobStore) : List Call → Bool
  | [] => true
  | c :: cs =>
    (match c with
      | Call.putEncodingResult result =>
        (match resultRequestID result with
          | some id => !decide (id ∈ e.requested) || (mapGet id e.encoded).isNone
          | none => true)
      | _ => true)
    && (match step e c with
      | none => true
      | some e1 => noOverwrite e1 cs)

/-- The result map binds no key twice, every stored footprint is defined, their sum is
`total`, and the counter is that sum as a `uint64`. -/
def accounted (e : encodedBlobStore) (total : Nat) : Prop :=
  mapWF e.encoded ∧ footprintSum e.encoded = some total
    ∧ e.encodedResultSize = total % 2 ^ 64

/-- A result for `(a, 0)` whose `BlobMetadata` pointer is nil. -/
def nilMetadataResult : EncodingResult :=
  { sampleResult keyA 100 [1] with BlobMetadata := none }

/-- A result for `(a, 0)` whose `BlobQuorumInfo` pointer is nil. -/
def nilQuorumResult : EncodingResult :=
  { sampleResult keyA 100 [1] with BlobQuorumInfo := none }

/-- A result for `(a, 0)` at block 5 whose only chunk is a nil pointer. -/
def nilChunkResult : EncodingResult :=
  { sampleResult keyA 5 [] with Chunks := [none] }

/-! ## Lemmas on maps and sets -/

theorem mapGet_cons {β : Type} (k k1 : requestID) (v : β) (m : List (requestID × β)) :
    mapGet k ((k1, v) :: m) = if k1 = k then some v else mapGet k m := rfl

theorem mapDelete_cons {β : Type} (k k1 : requestID) (v : β) (m : List (requestID × β)) :
    mapDelete k ((k1, v) :: m) = if k1 = k then mapDelete k m else (k1, v) :: mapDelete k m := by
  by_cases h : k1 = k <;> simp [mapDelete, List.filter_cons, h]

theorem mapGet_mapDelete_self {β : Type} (k : requestID) (m : List (requestID × β)) :
    mapGet k (mapDelete k m) = none := by
  induction m with
  | nil => rfl
  | cons kv rest ih =>
    obtain ⟨k1, v⟩ := kv
    rw [mapDelete_cons]
    split_ifs with h
    · exact ih
    · rw [mapGet_cons, if_neg h]; exact ih

theorem mapGet_mapDelete_ne {β : Type} {k k1 : requestID} (h : k1 ≠ k)
    (m : List (requestID × β)) : mapGet k1 (mapDelete k m) = mapGet k1 m := by
  induction m with
  | nil => rfl
  | cons kv rest ih =>
    obtain ⟨k2, v⟩ := kv
    rw [mapDelete_cons, mapGet_cons]
    split_ifs with h2 h3 h3
    · exact absurd (h3.symm.trans h2) h
    · exact ih
    · rw [mapGet_cons, if_pos h3]
    · rw [mapGet_cons, if_neg h3]; exact ih

theorem mapGet_mapSet_self {β : Type} (k : requestID) (v : β) (m : List (requestID × β)) :
    mapGet k (mapSet k v m) = some v := by
  rw [mapSet, mapGet_cons, if_pos rfl]

theorem mapGet_mapSet_ne {β : Type} {k k1 : requestID} (h : k1 ≠ k) (v : β)
    (m : List (requestID × β)) : mapGet k1 (mapSet k v m) = mapGet k1 m := by
  rw [mapSet, mapGet_cons, if_neg (fun h3 => h h3.symm), mapGet_mapDelete_ne h]

theorem mapDelete_of_mapGet_none {β : Type} {k : requestID} {m : List (requestID × β)}
    (h : mapGet k m = none) : mapDelete k m = m := by
  induction m with
  | nil => rfl
  | cons kv rest ih =>
    obtain ⟨k1, v⟩ := kv
    rw [mapGet_cons] at h
    split_ifs at h with h1
    rw [mapDelete_cons, if_neg h1, ih h]

theorem mapGet_filter_none {β : Type} {k : requestID} {m : List (requestID × β)}
    (p : requestID × β → Bool) (h : mapGet k m = none) : mapGet k (m.filter p) = none := by
  induction m with
  | nil => rfl
  | cons kv rest ih =>
    obtain ⟨k1, v⟩ := kv
    rw [mapGet_cons] at h
    split_ifs at h with h1
    rw [List.filter_cons]
    split_ifs with hp
    · rw [mapGet_cons, if_neg h1]; exact ih h
    · exact ih h

theorem mapGet_mem {β : Type} {k : requestID} {v : β} {m : List (requestID × β)}
    (h : mapGet k m = some v) : (k, v) ∈ m := by
  induction m with
  | nil => simp [mapGet] at h
  | cons kv rest ih =>
    obtain ⟨k1, v1⟩ := kv
    rw [mapGet_cons] at h
    split_ifs at h with h1
    · cases h; subst h1; exact List.mem_cons_self _ _
    · exact List.mem_cons_of_mem _ (ih h)

theorem mapGet_none_not_mem {β : Type} {k : requestID} {m : List (requestID × β)}
    (h : mapGet k m = none) (v : β) : (k, v) ∉ m := by
  induction m with
  | nil => simp
  | cons kv rest ih =>
    obtain ⟨k1, v1⟩ := kv
    rw [mapGet_cons] at h
    split_ifs at h with h1
    intro hmem
    rcases List.mem_cons.mp hmem with heq | hmem
    · exact h1 (by cases heq; rfl)
    · exact ih h hmem

theorem mem_setAdd {k x : requestID} {s : List requestID} :
    x ∈ setAdd k s ↔ x = k ∨ x ∈ s := by
  by_cases h : x = k <;> simp [setAdd, h]

theorem mem_setDelete {k x : requestID} {s : List requestID} :
    x ∈ setDelete k s ↔ x ≠ k ∧ x ∈ s := by
  simp [setDelete, and_comm]

theorem markPending_cons (k k1 : requestID) (r : EncodingResult)
    (m : List (requestID × EncodingResult)) :
    markPending k ((k1, r) :: m) =
      if k1 = k then (k1, { r with Status := status.PendingConfirmation }) :: markPending k m
      else (k1, r) :: markPending k m := rfl

theorem mapGet_markPending_self (k : requestID) (m : List (requestID × EncodingResult)) :
    mapGet k (markPending k m) =
      (mapGet k m).map (fun r => { r with Status := status.PendingConfirmation }) := by
  induction m with
  | nil => rfl
  | cons kv rest ih =>
    obtain ⟨k2, v⟩ := kv
    rw [markPending_cons, mapGet_cons]
    split_ifs with h2
    · rw [mapGet_cons, if_pos h2]; rfl
    · rw [mapGet_cons, if_neg h2]; exact ih

theorem mapGet_markPending_ne {k k1 : requestID} (h : k1 ≠ k)
    (m : List (requestID × EncodingResult)) :
    mapGet k1 (markPending k m) = mapGet k1 m := by
  induction m with
  | nil => rfl
  | cons kv rest ih =>
    obtain ⟨k2, v⟩ := kv
    rw [markPending_cons, mapGet_cons]
    split_ifs with h2 h3 h3
    · exact absurd (h3.symm.trans h2) h
    · rw [mapGet_cons, if_neg h3]; exact ih
    · rw [mapGet_cons, if_pos h3]
    · rw [mapGet_cons, if_neg h3]; exact ih

theorem markPending_of_mapGet_none {k : requestID} {m : List (requestID × EncodingResult)}
    (h : mapGet k m = none) : markPending k m = m := by
  induction m with
  | nil => rfl
  | cons kv rest ih =>
    obtain ⟨k1, v⟩ := kv
    rw [mapGet_cons] at h
    split_ifs at h with h1
    rw [markPending_cons, if_neg h1, ih h]


/-! ## Lemmas on the sweep -/

theorem sweepLoop_cons (b : Nat) (k : requestID) (r : EncodingResult)
    (rest : List (requestID × EncodingResult)) (size : Nat) :
    sweepLoop b ((k, r) :: rest) size =
      if r.Status = status.PendingConfirmation then
        (sweepLoop b rest size).map (fun out => ((k, r) :: out.1, out.2.1, out.2.2))
      else if r.ReferenceBlockNumber = b then
        (sweepLoop b rest size).map (fun out => ((k, r) :: out.1, r :: out.2.1, out.2.2))
      else if r.ReferenceBlockNumber < b then
        match getChunksSize r with
        | none => none
        | some n => sweepLoop b rest (subU64 size n)
      else
        (sweepLoop b rest size).map (fun out => ((k, r) :: out.1, out.2.1, out.2.2)) := rfl

theorem footprintSum_cons (k : requestID) (r : EncodingResult)
    (rest : List (requestID × EncodingResult)) :
    footprintSum ((k, r) :: rest) =
      match getChunksSize r, footprintSum rest with
      | some n, some total => some (n + total)
      | _, _ => none := rfl

theorem subU64_lt (a b : Nat) : subU64 a b < 2 ^ 64 := by
  unfold subU64
  exact Nat.mod_lt _ (by norm_num)

theorem subU64_zero {a : Nat} (h : a < 2 ^ 64) : subU64 a 0 = a := by
  unfold subU64
  norm_num at h ⊢
  omega

theorem subU64_subU64 (a x y : Nat) : subU64 (subU64 a x) y = subU64 a (x + y) := by
  unfold subU64
  norm_num
  omega

theorem isStale_false_of_pending {b : Nat} {r : EncodingResult}
    (h : r.Status = status.PendingConfirmation) : isStale b r = false := by
  simp [isStale, h]

theorem isFresh_false_of_pending {b : Nat} {r : EncodingResult}
    (h : r.Status = status.PendingConfirmation) : isFresh b r = false := by
  simp [isFresh, h]

theorem status_dispersal_of_ne {r : EncodingResult}
    (h : ¬ r.Status = status.PendingConfirmation) : r.Status = status.PendingDispersal := by
  cases hs : r.Status with
  | PendingDispersal => rfl
  | PendingConfirmation => exact absurd hs h

/-- Exact outcome of the sweep loop when the footprints of the stale results are defined. -/
theorem sweepLoop_eq (b : Nat) :
    ∀ (m : List (requestID × EncodingResult)) (size total : Nat), size < 2 ^ 64 →
      footprintSum (m.filter (fun kr => isStale b kr.2)) = some total →
      sweepLoop b m size =
        some (m.filter (fun kr => !isStale b kr.2),
              (m.filter (fun kr => isFresh b kr.2)).map Prod.snd,
              subU64 size total) := by
  intro m
  induction m with
  | nil =>
    intro size total hsize hsum
    simp only [List.filter_nil, footprintSum, Option.some.injEq] at hsum
    subst hsum
    simp [sweepLoop, subU64_zero hsize]
  | cons kv rest ih =>
    obtain ⟨k, r⟩ := kv
    intro size total hsize hsum
    rw [sweepLoop_cons]
    by_cases hp : r.Status = status.PendingConfirmation
    · have hst : isStale b r = false := isStale_false_of_pending hp
      have hfr : isFresh b r = false := isFresh_false_of_pending hp
      rw [List.filter_cons, hst] at hsum
      simp only [Bool.false_eq_true, if_false] at hsum
      rw [if_pos hp, ih size total hsize hsum]
      simp [List.filter_cons, hst, hfr]
    · have hd : r.Status = status.PendingDispersal := status_dispersal_of_ne hp
      rw [if_neg hp]
      by_cases heq : r.ReferenceBlockNumber = b
      · have hst : isStale b r = false := by simp [isStale, heq]
        have hfr : isFresh b r = true := by simp [isFresh, heq, hd]
        rw [List.filter_cons, hst] at hsum
        simp only [Bool.false_eq_true, if_false] at hsum
        rw [if_pos heq, ih size total hsize hsum]
        simp [List.filter_cons, hst, hfr]
      · rw [if_neg heq]
        have hfr : isFresh b r = false := by simp [isFresh, heq]
        by_cases hlt : r.ReferenceBlockNumber < b
        · have hst : isStale b r = true := by simp [isStale, hlt, hd]
          rw [List.filter_cons, hst] at hsum
          simp only [if_true] at hsum
          rw [footprintSum_cons] at hsum
          rw [if_pos hlt]
          cases hn : getChunksSize r with
          | none => simp [hn] at hsum
          | some n =>
            cases ht : footprintSum (rest.filter (fun kr => isStale b kr.2)) with
            | none => simp [hn, ht] at hsum
            | some t =>
              simp only [hn, ht, Option.some.injEq] at hsum
              subst hsum
              simp only []
              rw [ih (subU64 size n) t (subU64_lt _ _) ht, subU64_subU64]
              simp [List.filter_cons, hst, hfr]
        · have hst : isStale b r = false := by simp [isStale, hlt]
          rw [List.filter_cons, hst] at hsum
          simp only [Bool.false_eq_true, if_false] at hsum
          rw [if_neg hlt, ih size total hsize hsum]
          simp [List.filter_cons, hst, hfr]

/-- Whatever the counter, a sweep loop that returns keeps the results that are not stale and
fetches the fresh ones. -/
theorem sweepLoop_some (b : Nat) :
    ∀ (m : List (requestID × EncodingResult)) (size : Nat)
      (out : List (requestID × EncodingResult) × List EncodingResult × Nat),
      sweepLoop b m size = some out →
      out.1 = m.filter (fun kr => !isStale b kr.2) ∧
      out.2.1 = (m.filter (fun kr => isFresh b kr.2)).map Prod.snd := by
  intro m
  induction m with
  | nil =>
    intro size out h
    simp only [sweepLoop, Option.some.injEq] at h
    subst h
    simp
  | cons kv rest ih =>
    obtain ⟨k, r⟩ := kv
    intro size out h
    rw [sweepLoop_cons] at h
    by_cases hp : r.Status = status.PendingConfirmation
    · have hst : isStale b r = false := isStale_false_of_pending hp
      have hfr : isFresh b r = false := isFresh_false_of_pending hp
      rw [if_pos hp] at h
      cases hrec : sweepLoop b rest size with
      | none => simp [hrec] at h
      | some o =>
        obtain ⟨h1, h2⟩ := ih size o hrec
        simp only [hrec, Option.map_some', Option.some.injEq] at h
        subst h
        simp [List.filter_cons, hst, hfr, h1, h2]
    · have hd : r.Status = status.PendingDispersal := status_dispersal_of_ne hp
      rw [if_neg hp] at h
      by_cases heq : r.ReferenceBlockNumber = b
      · have hst : isStale b r = false := by simp [isStale, heq]
        have hfr : isFresh b r = true := by simp [isFresh, heq, hd]
        rw [if_pos heq] at h
        cases hrec : sweepLoop b rest size with
        | none => simp [hrec] at h
        | some o =>
          obtain ⟨h1, h2⟩ := ih size o hrec
          simp only [hrec, Option.map_some', Option.some.injEq] at h
          subst h
          simp [List.filter_cons, hst, hfr, h1, h2]
      · rw [if_neg heq] at h
        have hfr : isFresh b r = false := by simp [isFresh, heq]
        by_cases hlt : r.ReferenceBlockNumber < b
        · have hst : isStale b r = true := by simp [isStale, hlt, hd]
          rw [if_pos hlt] at h
          cases hn : getChunksSize r with
          | none => simp [hn] at h
          | some n =>
            simp only [hn] at h
            obtain ⟨h1, h2⟩ := ih (subU64 size n) out h
            simp [List.filter_cons, hst, hfr, h1, h2]
        · have hst : isStale b r = false := by simp [isStale, hlt]
          rw [if_neg hlt] at h
          cases hrec : sweepLoop b rest size with
          | none => simp [hrec] at h
          | some o =>
            obtain ⟨h1, h2⟩ := ih size o hrec
            simp only [hrec, Option.map_some', Option.some.injEq] at h
            subst h
            simp [List.filter_cons, hst, hfr, h1, h2]


/-! ## Mutual exclusivity of the in-flight set and the result map -/

theorem exclusive_step {e e1 : encodedBlobStore} {c : Call} (hex : exclusive e)
    (hguard : ∀ blobKey quorumID, c = Call.putEncodingRequest blobKey quorumID →
      mapGet (getRequestID blobKey quorumID) e.encoded = none)
    (hstep : step e c = some e1) : exclusive e1 := by
  cases c with
  | putEncodingRequest blobKey quorumID =>
    simp only [step, Option.some.injEq] at hstep
    subst hstep
    intro id hid
    simp only [PutEncodingRequest] at hid ⊢
    rcases mem_setAdd.mp hid with h | h
    · rw [h]; exact hguard blobKey quorumID rfl
    · exact hex id h
  | putEncodingResult result =>
    simp only [step, PutEncodingResult] at hstep
    cases hm : result.BlobMetadata with
    | none => simp [hm, Outcome.store] at hstep
    | some metadata =>
      cases hq : result.BlobQuorumInfo with
      | none => simp [hm, hq, Outcome.store] at hstep
      | some quorumInfo =>
        simp only [hm, hq] at hstep
        split_ifs at hstep with hin
        · cases hg : mapGet (getRequestID
              { BlobHash := metadata.BlobHash, MetadataHash := metadata.MetadataHash }
              quorumInfo.QuorumID) e.encoded with
          | some old =>
            simp only [hg, Outcome.store, Option.some.injEq] at hstep
            subst hstep
            intro id hid
            obtain ⟨hne, hmem⟩ := mem_setDelete.mp hid
            simp only []
            rw [mapGet_mapSet_ne hne]
            exact hex id hmem
          | none =>
            simp only [hg] at hstep
            cases hn : getChunksSize result with
            | none => simp [hn, Outcome.store] at hstep
            | some n =>
              simp only [hn, Outcome.store, Option.some.injEq] at hstep
              subst hstep
              intro id hid
              obtain ⟨hne, hmem⟩ := mem_setDelete.mp hid
              simp only []
              rw [mapGet_mapSet_ne hne]
              exact hex id hmem
        · simp only [Outcome.store, Option.some.injEq] at hstep
          subst hstep
          exact hex
  | deleteEncodingRequest blobKey quorumID =>
    simp only [step, DeleteEncodingRequest, Option.some.injEq] at hstep
    subst hstep
    intro id hid
    split_ifs at hid ⊢ with hin
    · exact hex id (mem_setDelete.mp hid).2
    · exact hex id hid
  | deleteEncodingResult blobKey quorumID =>
    simp only [step, DeleteEncodingResult] at hstep
    cases hg : mapGet (getRequestID blobKey quorumID) e.encoded with
    | none =>
      simp only [hg, Outcome.store, Option.some.injEq] at hstep
      subst hstep
      exact hex
    | some old =>
      simp only [hg] at hstep
      cases hn : getChunksSize old with
      | none => simp [hn, Outcome.store] at hstep
      | some n =>
        simp only [hn, Outcome.store, Option.some.injEq] at hstep
        subst hstep
        intro id hid
        exact mapGet_filter_none _ (hex id hid)
  | markEncodedResultPendingConfirmation blobKey quorumID =>
    simp only [step, MarkEncodedResultPendingConfirmation, Option.some.injEq] at hstep
    cases hg : mapGet (getRequestID blobKey quorumID) e.encoded with
    | none =>
      simp only [hg] at hstep
      subst hstep
      exact hex
    | some old =>
      simp only [hg] at hstep
      subst hstep
      intro id hid
      simp only []
      by_cases hid2 : id = getRequestID blobKey quorumID
      · have := hex id hid
        rw [hid2, hg] at this
        cases this
      · rw [mapGet_markPending_ne hid2]
        exact hex id hid
  | getNewAndDeleteStaleEncodingResults blockNumber =>
    simp only [step, GetNewAndDeleteStaleEncodingResults] at hstep
    cases hs : sweepLoop blockNumber e.encoded e.encodedResultSize with
    | none => simp [hs, Outcome.store] at hstep
    | some out =>
      simp only [hs, Outcome.store, Option.some.injEq] at hstep
      subst hstep
      intro id hid
      simp only []
      rw [(sweepLoop_some blockNumber _ _ _ hs).1]
      exact mapGet_filter_none _ (hex id hid)

theorem exclusive_run :
    ∀ (cs : List Call) (e e1 : encodedBlobStore), exclusive e →
      requestsOnlyUnencoded e cs = true → run e cs = some e1 → exclusive e1 := by
  intro cs
  induction cs with
  | nil =>
    intro e e1 hex _ hrun
    simp only [run, Option.some.injEq] at hrun
    subst hrun
    exact hex
  | cons c cs ih =>
    intro e e1 hex hguard hrun
    simp only [run] at hrun
    simp only [requestsOnlyUnencoded, Bool.and_eq_true] at hguard
    cases hs : step e c with
    | none => simp [hs] at hrun
    | some e2 =>
      simp only [hs] at hrun hguard
      refine ih e2 e1 (exclusive_step hex ?_ hs) hguard.2 hrun
      intro blobKey quorumID hc
      subst hc
      simpa [Option.isNone_iff_eq_none] using hguard.1

/-- C1 (defect of the code): after `PutEncodingRequest(a, 0)`, `PutEncodingResult` of a
result with one one-coefficient chunk, `PutEncodingRequest(a, 0)` again and `PutEncodingResult`
of a result without chunks, `GetEncodedResultSize` reports 768 bytes while the only stored
result has footprint 512. -/
theorem byte_accounting_overwrite_diverges :
    (run newEncodedBlobStore
        [Call.putEncodingRequest keyA 0, Call.putEncodingResult (sampleResult keyA 100 [1]),
         Call.putEncodingRequest keyA 0, Call.putEncodingResult (sampleResult keyA 101 [])]).map
      (fun e => ((GetEncodedResultSize e).2, footprintSum e.encoded)) = some (768, some 512) := by
  decide

/-- C2 (as stated, refuted): after `PutEncodingRequest(a, 0)`, `PutEncodingResult(r)` and a
second `PutEncodingRequest(a, 0)` the identity of `(a, 0)` is in the in-flight set and in
the result map at once. -/
theorem mutual_exclusivity_refuted :
    ∃ e, run newEncodedBlobStore
        [Call.putEncodingRequest keyA 0, Call.putEncodingResult (sampleResult keyA 100 [1]),
         Call.putEncodingRequest keyA 0] = some e
      ∧ getRequestID keyA 0 ∈ e.requested
      ∧ mapGet (getRequestID keyA 0) e.encoded = some (sampleResult keyA 100 [1]) :=
  ⟨{ requested := ["a-m-0"], encoded := [("a-m-0", sampleResult keyA 100 [1])],
     encodedResultSize := 768 }, by decide, by decide, by decide⟩

/-- C2 (amended): starting from a new empty store, after every finite sequence of store
operations in which each `PutEncodingRequest` is issued for an identity that has no stored
result at the time of the call, no request identity is both in the in-flight set and in the
result map. -/
theorem mutual_exclusivity_guarded (cs : List Call) (e : encodedBlobStore)
    (hguard : requestsOnlyUnencoded newEncodedBlobStore cs = true)
    (hrun : run newEncodedBlobStore cs = some e) :
    ∀ id, ¬ (id ∈ e.requested ∧ (mapGet id e.encoded).isSome) := by
  have hex : exclusive e :=
    exclusive_run cs newEncodedBlobStore e (fun id hid => by simp [newEncodedBlobStore] at hid)
      hguard hrun
  intro id hboth
  have := hex id hboth.1
  rw [this] at hboth
  exact absurd hboth.2 (by simp)

/-- Witness of `mutual_exclusivity_guarded`: a request for `(a, 0)`, its result, then a
request for `(b, 0)`. -/
theorem mutual_exclusivity_guarded_witness :
    requestsOnlyUnencoded newEncodedBlobStore
        [Call.putEncodingRequest keyA 0, Call.putEncodingResult (sampleResult keyA 100 [1]),
         Call.putEncodingRequest keyB 0] = true
      ∧ run newEncodedBlobStore
        [Call.putEncodingRequest keyA 0, Call.putEncodingResult (sampleResult keyA 100 [1]),
         Call.putEncodingRequest keyB 0]
        = some { requested := ["b-m-0"], encoded := [("a-m-0", sampleResult keyA 100 [1])],
                 encodedResultSize := 768 }
      ∧ ∀ id, ¬ (id ∈ ["b-m-0"]
          ∧ (mapGet id [("a-m-0", sampleResult keyA 100 [1])]).isSome) :=
  ⟨by decide, by decide,
    mutual_exclusivity_guarded
      [Call.putEncodingRequest keyA 0, Call.putEncodingResult (sampleResult keyA 100 [1]),
       Call.putEncodingRequest keyB 0]
      { requested := ["b-m-0"], encoded := [("a-m-0", sampleResult keyA 100 [1])],
        encodedResultSize := 768 } (by decide) (by decide)⟩


/-! ## Single operations -/

/-- C4: for every store and every result whose request identity has no in-flight marker,
`PutEncodingResult` returns an error and the store it leaves (in-flight set, result map and
byte counter) is the store it was given. -/
theorem put_result_without_request (e : encodedBlobStore) (result : EncodingResult)
    (id : requestID) (hid : resultRequestID result = some id) (hnot : id ∉ e.requested) :
    ∃ err, PutEncodingResult e result = Outcome.ret e (some err) := by
  unfold resultRequestID at hid
  cases hm : result.BlobMetadata with
  | none => simp [hm] at hid
  | some metadata =>
    cases hq : result.BlobQuorumInfo with
    | none => simp [hm, hq] at hid
    | some quorumInfo =>
      simp only [hm, hq, Option.some.injEq] at hid
      subst hid
      refine ⟨"PutEncodedBlob: no such key (" ++ getRequestID
        { BlobHash := metadata.BlobHash, MetadataHash := metadata.MetadataHash }
        quorumInfo.QuorumID ++ ") in requested set", ?_⟩
      simp only [PutEncodingResult, hm, hq]
      rw [if_neg hnot]

/-- Witness of `put_result_without_request`: a result for `(a, 0)` offered to the empty
store. -/
theorem put_result_without_request_witness :
    resultRequestID (sampleResult keyA 100 [1]) = some "a-m-0"
      ∧ "a-m-0" ∉ newEncodedBlobStore.requested
      ∧ ∃ err, PutEncodingResult newEncodedBlobStore (sampleResult keyA 100 [1])
          = Outcome.ret newEncodedBlobStore (some err) :=
  ⟨by decide, by decide,
    put_result_without_request newEncodedBlobStore (sampleResult keyA 100 [1]) "a-m-0"
      (by decide) (by decide)⟩

/-- C8: `HasEncodingRequested` returns true exactly when the identity is in the in-flight
set, or has a stored result that is pending confirmation or whose reference block number is
the given one; so it returns false when the identity has neither a marker nor a result.
(The operation is a pure function of the store: it has no store to return.) -/
theorem has_encoding_requested_iff (e : encodedBlobStore) (blobKey : BlobKey)
    (quorumID n : Nat) :
    (HasEncodingRequested e blobKey quorumID n = true ↔
      (getRequestID blobKey quorumID ∈ e.requested
        ∨ ∃ res, mapGet (getRequestID blobKey quorumID) e.encoded = some res
            ∧ (res.Status = status.PendingConfirmation ∨ res.ReferenceBlockNumber = n)))
    ∧ ((getRequestID blobKey quorumID ∉ e.requested
          ∧ mapGet (getRequestID blobKey quorumID) e.encoded = none) →
        HasEncodingRequested e blobKey quorumID n = false) := by
  constructor
  · unfold HasEncodingRequested
    by_cases hin : getRequestID blobKey quorumID ∈ e.requested
    · simp [hin]
    · cases hg : mapGet (getRequestID blobKey quorumID) e.encoded with
      | none => simp [hin]
      | some res =>
        by_cases hc : res.Status = status.PendingConfirmation ∨ res.ReferenceBlockNumber = n
        · simp only [if_neg hin, if_pos hc, true_iff]
          exact Or.inr ⟨res, rfl, hc⟩
        · simp only [if_neg hin, if_neg hc, Bool.false_eq_true, false_iff]
          rintro (h | ⟨res1, h1, h2⟩)
          · exact hin h
          · cases h1; exact hc h2
  · rintro ⟨hin, hg⟩
    simp [HasEncodingRequested, hin, hg]

/-- C9: for every store and every result whose identity has an in-flight marker (and whose
footprint is defined when it is needed, i.e. when the identity has no stored result),
`PutEncodingResult` returns no error; afterwards the result map binds the identity to the
result, the marker of the identity is gone, every other marker and binding is as before, and
the counter has grown by the footprint if the identity had no stored result and is unchanged
if a stored result was overwritten. -/
theorem put_result_success (e : encodedBlobStore) (result : EncodingResult) (id : requestID)
    (size : Nat) (hid : resultRequestID result = some id) (hin : id ∈ e.requested)
    (hsize : mapGet id e.encoded = none → getChunksSize result = some size) :
    ∃ e1, PutEncodingResult e result = Outcome.ret e1 none
      ∧ mapGet id e1.encoded = some result
      ∧ id ∉ e1.requested
      ∧ (∀ id1, id1 ≠ id → (id1 ∈ e1.requested ↔ id1 ∈ e.requested))
      ∧ (∀ id1, id1 ≠ id → mapGet id1 e1.encoded = mapGet id1 e.encoded)
      ∧ (mapGet id e.encoded = none →
          e1.encodedResultSize = addU64 e.encodedResultSize size)
      ∧ (∀ old, mapGet id e.encoded = some old →
          e1.encodedResultSize = e.encodedResultSize) := by
  unfold resultRequestID at hid
  cases hm : result.BlobMetadata with
  | none => simp [hm] at hid
  | some metadata =>
    cases hq : result.BlobQuorumInfo with
    | none => simp [hm, hq] at hid
    | some quorumInfo =>
      simp only [hm, hq, Option.some.injEq] at hid
      subst hid
      simp only [PutEncodingResult, hm, hq]
      rw [if_pos hin]
      cases hg : mapGet (getRequestID
          { BlobHash := metadata.BlobHash, MetadataHash := metadata.MetadataHash }
          quorumInfo.QuorumID) e.encoded with
      | some old =>
        refine ⟨_, rfl, mapGet_mapSet_self _ _ _, ?_, ?_, ?_, ?_, ?_⟩
        · intro h; exact (mem_setDelete.mp h).1 rfl
        · intro id1 hne
          exact ⟨fun h => (mem_setDelete.mp h).2, fun h => mem_setDelete.mpr ⟨hne, h⟩⟩
        · intro id1 hne; exact mapGet_mapSet_ne hne _ _
        · intro h; cases h
        · intro _ _; rfl
      | none =>
        rw [hsize hg]
        refine ⟨_, rfl, mapGet_mapSet_self _ _ _, ?_, ?_, ?_, ?_, ?_⟩
        · intro h; exact (mem_setDelete.mp h).1 rfl
        · intro id1 hne
          exact ⟨fun h => (mem_setDelete.mp h).2, fun h => mem_setDelete.mpr ⟨hne, h⟩⟩
        · intro id1 hne; exact mapGet_mapSet_ne hne _ _
        · intro _; rfl
        · intro old h; cases h

/-- Witness of `put_result_success`: the result for `(a, 0)` arrives after its request. -/
theorem put_result_success_witness :
    resultRequestID (sampleResult keyA 100 [1]) = some "a-m-0"
      ∧ "a-m-0" ∈ (PutEncodingRequest newEncodedBlobStore keyA 0).requested
      ∧ (mapGet "a-m-0" (PutEncodingRequest newEncodedBlobStore keyA 0).encoded = none →
          getChunksSize (sampleResult keyA 100 [1]) = some 768)
      ∧ PutEncodingResult (PutEncodingRequest newEncodedBlobStore keyA 0)
          (sampleResult keyA 100 [1])
        = Outcome.ret { requested := [], encoded := [("a-m-0", sampleResult keyA 100 [1])],
                        encodedResultSize := 768 } none
      ∧ ∃ e1, PutEncodingResult (PutEncodingRequest newEncodedBlobStore keyA 0)
            (sampleResult keyA 100 [1]) = Outcome.ret e1 none
          ∧ mapGet "a-m-0" e1.encoded = some (sampleResult keyA 100 [1])
          ∧ "a-m-0" ∉ e1.requested
          ∧ (∀ id1, id1 ≠ "a-m-0" →
              (id1 ∈ e1.requested ↔
                id1 ∈ (PutEncodingRequest newEncodedBlobStore keyA 0).requested))
          ∧ (∀ id1, id1 ≠ "a-m-0" →
              mapGet id1 e1.encoded
                = mapGet id1 (PutEncodingRequest newEncodedBlobStore keyA 0).encoded)
          ∧ (mapGet "a-m-0" (PutEncodingRequest newEncodedBlobStore keyA 0).encoded = none →
              e1.encodedResultSize
                = addU64 (PutEncodingRequest newEncodedBlobStore keyA 0).encodedResultSize 768)
          ∧ (∀ old,
              mapGet "a-m-0" (PutEncodingRequest newEncodedBlobStore keyA 0).encoded = some old →
              e1.encodedResultSize
                = (PutEncodingRequest newEncodedBlobStore keyA 0).encodedResultSize) :=
  ⟨by decide, by decide, by decide, by decide,
    put_result_success (PutEncodingRequest newEncodedBlobStore keyA 0)
      (sampleResult keyA 100 [1]) "a-m-0" 768 (by decide) (by decide) (by decide)⟩

/-- C10: `GetEncodingResult` returns an error exactly when the identity has no binding in the
result map and otherwise returns the stored result; and right after a `PutEncodingResult`
that returned no error, `GetEncodingResult` on the blob key and quorum of that result
returns it.  (The operation is a pure function of the store: it has no store to return.) -/
theorem get_encoding_result_lookup (e : encodedBlobStore) (blobKey : BlobKey)
    (quorumID : Nat) :
    ((∃ err, GetEncodingResult e blobKey quorumID = Except.error err) ↔
        mapGet (getRequestID blobKey quorumID) e.encoded = none)
    ∧ (∀ res, mapGet (getRequestID blobKey quorumID) e.encoded = some res →
        GetEncodingResult e blobKey quorumID = Except.ok res)
    ∧ (∀ (result : EncodingResult) (metadata : BlobMetadata) (quorumInfo : BlobQuorumInfo)
        (e1 : encodedBlobStore),
        result.BlobMetadata = some metadata → result.BlobQuorumInfo = some quorumInfo →
        PutEncodingResult e result = Outcome.ret e1 none →
        GetEncodingResult e1
          { BlobHash := metadata.BlobHash, MetadataHash := metadata.MetadataHash }
          quorumInfo.QuorumID = Except.ok result) := by
  refine ⟨?_, ?_, ?_⟩
  · unfold GetEncodingResult
    cases hg : mapGet (getRequestID blobKey quorumID) e.encoded with
    | none => simp
    | some res => simp
  · intro res hg
    simp [GetEncodingResult, hg]
  · intro result metadata quorumInfo e1 hm hq hput
    obtain ⟨e2, hput2, hget, _⟩ :
        ∃ e2, PutEncodingResult e result = Outcome.ret e2 none
          ∧ mapGet (getRequestID
              { BlobHash := metadata.BlobHash, MetadataHash := metadata.MetadataHash }
              quorumInfo.QuorumID) e2.encoded = some result ∧ True := by
      simp only [PutEncodingResult, hm, hq] at hput ⊢
      split_ifs at hput ⊢ with hin
      · cases hg : mapGet (getRequestID
            { BlobHash := metadata.BlobHash, MetadataHash := metadata.MetadataHash }
            quorumInfo.QuorumID) e.encoded with
        | some old => exact ⟨_, rfl, mapGet_mapSet_self _ _ _, trivial⟩
        | none =>
          simp only [hg] at hput
          cases hn : getChunksSize result with
          | none => simp [hn] at hput
          | some n => exact ⟨_, rfl, mapGet_mapSet_self _ _ _, trivial⟩
      · simp at hput
    rw [hput] at hput2
    cases hput2
    simp [GetEncodingResult, hget]


/-! ## The sweep -/

/-- Exact outcome of a sweep whose stale results have defined footprints. -/
theorem sweep_eq {e : encodedBlobStore} {b total : Nat}
    (hcounter : e.encodedResultSize < 2 ^ 64)
    (hsize : footprintSum (e.encoded.filter (fun kr => isStale b kr.2)) = some total) :
    GetNewAndDeleteStaleEncodingResults e b =
      Outcome.ret
        { e with encoded := e.encoded.filter (fun kr => !isStale b kr.2),
                 encodedResultSize := subU64 e.encodedResultSize total }
        ((e.encoded.filter (fun kr => isFresh b kr.2)).map Prod.snd) := by
  unfold GetNewAndDeleteStaleEncodingResults
  rw [sweepLoop_eq b e.encoded e.encodedResultSize total hcounter hsize]

theorem isStale_false_of_isFresh {b : Nat} {r : EncodingResult} (h : isFresh b r = true) :
    isStale b r = false := by
  simp only [isFresh, Bool.and_eq_true, decide_eq_true_eq] at h
  simp [isStale, h.2]

theorem isFresh_status {b : Nat} {r : EncodingResult} (h : isFresh b r = true) :
    r.Status = status.PendingDispersal ∧ r.ReferenceBlockNumber = b := by
  simpa [isFresh] using h

/-- C3: for every store (with a `uint64` counter and defined footprints of its stale
results) and every block number `b`, the sweep returns, up to order and once per binding,
exactly the stored results that are pending dispersal with reference block `b`, and leaves
them stored; it removes exactly the stored results that are pending dispersal with a
reference block below `b` and subtracts the sum of their footprints from the counter; and
every result that is pending confirmation or has a reference block above `b` stays stored
and is not returned. -/
theorem sweep_classification (e : encodedBlobStore) (b total : Nat)
    (hcounter : e.encodedResultSize < 2 ^ 64)
    (hsize : footprintSum (e.encoded.filter (fun kr => isStale b kr.2)) = some total) :
    ∃ e1 fetched,
      GetNewAndDeleteStaleEncodingResults e b = Outcome.ret e1 fetched
      ∧ fetched.Perm ((e.encoded.filter (fun kr => isFresh b kr.2)).map Prod.snd)
      ∧ (∀ kr ∈ e.encoded, isFresh b kr.2 = true → kr ∈ e1.encoded)
      ∧ e1.encoded.Perm (e.encoded.filter (fun kr => !isStale b kr.2))
      ∧ (∀ kr ∈ e.encoded, isStale b kr.2 = true → kr ∉ e1.encoded ∧ kr.2 ∉ fetched)
      ∧ e1.encodedResultSize = subU64 e.encodedResultSize total
      ∧ (∀ kr ∈ e.encoded,
          kr.2.Status = status.PendingConfirmation ∨ b < kr.2.ReferenceBlockNumber →
          kr ∈ e1.encoded ∧ kr.2 ∉ fetched) := by
  refine ⟨_, _, sweep_eq hcounter hsize, List.Perm.refl _, ?_, List.Perm.refl _, ?_, rfl, ?_⟩
  · intro kr hmem hfresh
    exact List.mem_filter.mpr ⟨hmem, by simp [isStale_false_of_isFresh hfresh]⟩
  · intro kr _ hstale
    constructor
    · intro h
      have := (List.mem_filter.mp h).2
      simp [hstale] at this
    · intro h
      obtain ⟨kr1, h1, h2⟩ := List.mem_map.mp h
      have hf := isFresh_status (List.mem_filter.mp h1).2
      rw [h2] at hf
      simp only [isStale, Bool.and_eq_true, decide_eq_true_eq] at hstale
      omega
  · intro kr hmem hcase
    constructor
    · refine List.mem_filter.mpr ⟨hmem, ?_⟩
      rcases hcase with h | h
      · simp [isStale_false_of_pending h]
      · have : isStale b kr.2 = false := by
          simp only [isStale, Bool.and_eq_false_imp, decide_eq_true_eq, decide_eq_false_iff_not]
          intro _; omega
        simp [this]
    · intro h
      obtain ⟨kr1, h1, h2⟩ := List.mem_map.mp h
      have hf := isFresh_status (List.mem_filter.mp h1).2
      rw [h2] at hf
      rcases hcase with h | h
      · rw [h] at hf; exact absurd hf.1 (by decide)
      · omega

/-- Witness of `sweep_classification`: results at blocks 5, 10, 10 and 15, all pending
dispersal, swept at block 10: the two results at block 10 are returned, the one at block 5
is deleted and its 768 bytes subtracted, the one at block 15 stays. -/
theorem sweep_classification_witness :
    sweepExample.encodedResultSize < 2 ^ 64
      ∧ footprintSum (sweepExample.encoded.filter (fun kr => isStale 10 kr.2)) = some 768
      ∧ GetNewAndDeleteStaleEncodingResults sweepExample 10
        = Outcome.ret
            { requested := [],
              encoded :=
                [("b-m-0", sampleResult keyB 10 [2]), ("c-m-0", sampleResult keyC 10 []),
                 ("d-m-0", sampleResult keyD 15 [1, 1])],
              encodedResultSize := 1024 + 512 + 1024 }
            [sampleResult keyB 10 [2], sampleResult keyC 10 []]
      ∧ ∃ e1 fetched,
          GetNewAndDeleteStaleEncodingResults sweepExample 10 = Outcome.ret e1 fetched
          ∧ fetched.Perm
              ((sweepExample.encoded.filter (fun kr => isFresh 10 kr.2)).map Prod.snd)
          ∧ (∀ kr ∈ sweepExample.encoded, isFresh 10 kr.2 = true → kr ∈ e1.encoded)
          ∧ e1.encoded.Perm (sweepExample.encoded.filter (fun kr => !isStale 10 kr.2))
          ∧ (∀ kr ∈ sweepExample.encoded,
              isStale 10 kr.2 = true → kr ∉ e1.encoded ∧ kr.2 ∉ fetched)
          ∧ e1.encodedResultSize = subU64 sweepExample.encodedResultSize 768
          ∧ (∀ kr ∈ sweepExample.encoded,
              kr.2.Status = status.PendingConfirmation ∨ 10 < kr.2.ReferenceBlockNumber →
              kr ∈ e1.encoded ∧ kr.2 ∉ fetched) :=
  ⟨by decide, by decide, by decide,
    sweep_classification sweepExample 10 768 (by decide) (by decide)⟩


theorem filter_stale_of_not_stale (b : Nat) (m : List (requestID × EncodingResult)) :
    (m.filter (fun kr => !isStale b kr.2)).filter (fun kr => isStale b kr.2) = [] := by
  rw [List.filter_filter, List.filter_eq_nil_iff]
  intro kr _
  cases isStale b kr.2 <;> simp

theorem filter_fresh_of_not_stale (b : Nat) (m : List (requestID × EncodingResult)) :
    (m.filter (fun kr => !isStale b kr.2)).filter (fun kr => isFresh b kr.2)
      = m.filter (fun kr => isFresh b kr.2) := by
  rw [List.filter_filter]
  apply List.filter_congr
  intro kr _
  cases hf : isFresh b kr.2
  · simp
  · simp [isStale_false_of_isFresh hf]

theorem filter_not_stale_idem (b : Nat) (m : List (requestID × EncodingResult)) :
    (m.filter (fun kr => !isStale b kr.2)).filter (fun kr => !isStale b kr.2)
      = m.filter (fun kr => !isStale b kr.2) := by
  rw [List.filter_filter]
  apply List.filter_congr
  intro kr _
  cases isStale b kr.2 <;> simp

/-- C6: for every store (with a `uint64` counter and defined footprints of its stale
results) and every block number `b`, two consecutive sweeps at `b` both return, and they
return the same results up to order; every returned result is still stored after the first
and after the second call. -/
theorem sweep_twice_same_fresh (e : encodedBlobStore) (b total : Nat)
    (hcounter : e.encodedResultSize < 2 ^ 64)
    (hsize : footprintSum (e.encoded.filter (fun kr => isStale b kr.2)) = some total) :
    ∃ e1 fetched1 e2 fetched2,
      GetNewAndDeleteStaleEncodingResults e b = Outcome.ret e1 fetched1
      ∧ GetNewAndDeleteStaleEncodingResults e1 b = Outcome.ret e2 fetched2
      ∧ fetched1.Perm fetched2
      ∧ ∀ r ∈ fetched1, ∃ k, (k, r) ∈ e1.encoded ∧ (k, r) ∈ e2.encoded := by
  have h2 : GetNewAndDeleteStaleEncodingResults
      { e with encoded := e.encoded.filter (fun kr => !isStale b kr.2),
               encodedResultSize := subU64 e.encodedResultSize total } b = _ :=
    @sweep_eq _ b 0 (subU64_lt _ _) (by
      simp only [filter_stale_of_not_stale]
      rfl)
  refine ⟨_, _, _, _, sweep_eq hcounter hsize, h2, ?_, ?_⟩
  · simp only [filter_fresh_of_not_stale]
    exact List.Perm.refl _
  · intro r hr
    obtain ⟨kr, hkr, hr2⟩ := List.mem_map.mp hr
    obtain ⟨hmem, hfresh⟩ := List.mem_filter.mp hkr
    have hkeep : kr ∈ e.encoded.filter (fun kr => !isStale b kr.2) :=
      List.mem_filter.mpr ⟨hmem, by simp [isStale_false_of_isFresh hfresh]⟩
    refine ⟨kr.1, ?_, ?_⟩
    · rw [← hr2]; exact hkeep
    · rw [← hr2]
      simp only [filter_not_stale_idem]
      exact hkeep

/-- Witness of `sweep_twice_same_fresh`: the four-result store swept twice at block 10
returns the two results of block 10 both times. -/
theorem sweep_twice_same_fresh_witness :
    sweepExample.encodedResultSize < 2 ^ 64
      ∧ footprintSum (sweepExample.encoded.filter (fun kr => isStale 10 kr.2)) = some 768
      ∧ ∃ e1 fetched1 e2 fetched2,
          GetNewAndDeleteStaleEncodingResults sweepExample 10 = Outcome.ret e1 fetched1
          ∧ GetNewAndDeleteStaleEncodingResults e1 10 = Outcome.ret e2 fetched2
          ∧ fetched1.Perm fetched2
          ∧ ∀ r ∈ fetched1, ∃ k, (k, r) ∈ e1.encoded ∧ (k, r) ∈ e2.encoded :=
  ⟨by decide, by decide,
    sweep_twice_same_fresh sweepExample 10 768 (by decide) (by decide)⟩


theorem footprintSum_filter (p : requestID × EncodingResult → Bool) :
    ∀ (m : List (requestID × EncodingResult)) (total : Nat), footprintSum m = some total →
      ∃ part, footprintSum (m.filter p) = some part := by
  intro m
  induction m with
  | nil => intro total _; exact ⟨0, rfl⟩
  | cons kv rest ih =>
    obtain ⟨k, r⟩ := kv
    intro total h
    rw [footprintSum_cons] at h
    cases hn : getChunksSize r with
    | none => simp [hn] at h
    | some n =>
      cases ht : footprintSum rest with
      | none => simp [hn, ht] at h
      | some t =>
        obtain ⟨part, hpart⟩ := ih t ht
        rw [List.filter_cons]
        split_ifs with hp
        · exact ⟨n + part, by rw [footprintSum_cons, hn, hpart]⟩
        · exact ⟨part, hpart⟩

theorem footprintSum_append :
    ∀ (m1 m2 : List (requestID × EncodingResult)) (t1 t2 : Nat),
      footprintSum m1 = some t1 → footprintSum m2 = some t2 →
      footprintSum (m1 ++ m2) = some (t1 + t2) := by
  intro m1
  induction m1 with
  | nil =>
    intro m2 t1 t2 h1 h2
    simp only [footprintSum, Option.some.injEq] at h1
    subst h1
    simpa using h2
  | cons kv rest ih =>
    obtain ⟨k, r⟩ := kv
    intro m2 t1 t2 h1 h2
    rw [footprintSum_cons] at h1
    cases hn : getChunksSize r with
    | none => simp [hn] at h1
    | some n =>
      cases ht : footprintSum rest with
      | none => simp [hn, ht] at h1
      | some t =>
        simp only [hn, ht, Option.some.injEq] at h1
        subst h1
        rw [List.cons_append, footprintSum_cons, hn, ih m2 t t2 ht h2]
        simp [Nat.add_assoc]

theorem mapGet_filter_some {β : Type} {k : requestID} {v : β} (p : requestID × β → Bool)
    (hp : p (k, v) = true) :
    ∀ (m : List (requestID × β)), mapGet k m = some v → mapGet k (m.filter p) = some v := by
  intro m
  induction m with
  | nil => intro h; simp [mapGet] at h
  | cons kv rest ih =>
    obtain ⟨k1, v1⟩ := kv
    intro h
    rw [mapGet_cons] at h
    split_ifs at h with h1
    · cases h
      subst h1
      rw [List.filter_cons, if_pos hp, mapGet_cons, if_pos rfl]
    · rw [List.filter_cons]
      split_ifs with hp1
      · rw [mapGet_cons, if_neg h1]; exact ih h
      · exact ih h

theorem sweptFrom_refl {e : encodedBlobStore} (h : e.encodedResultSize < 2 ^ 64) :
    sweptFrom e e :=
  ⟨rfl, [], 0, by simp, by simp, rfl, (subU64_zero h).symm⟩

theorem sweptFrom_trans {e0 e1 e2 : encodedBlobStore} (h01 : sweptFrom e0 e1)
    (h12 : sweptFrom e1 e2) : sweptFrom e0 e2 := by
  obtain ⟨hr1, rem1, t1, hp1, hs1, hf1, hc1⟩ := h01
  obtain ⟨hr2, rem2, t2, hp2, hs2, hf2, hc2⟩ := h12
  refine ⟨hr2.trans hr1, rem2 ++ rem1, t2 + t1, ?_, ?_, footprintSum_append _ _ _ _ hf2 hf1, ?_⟩
  · rw [← List.append_assoc]
    exact hp1.trans (List.Perm.append_right rem1 hp2)
  · intro kr hkr
    rcases List.mem_append.mp hkr with h | h
    · exact hs2 kr h
    · exact hs1 kr h
  · rw [hc2, hc1, subU64_subU64, Nat.add_comm]

/-- One sweep on a store whose results all have a defined footprint. -/
theorem sweep_step {e : encodedBlobStore} (b : Nat) {all : Nat}
    (hcounter : e.encodedResultSize < 2 ^ 64) (hsizes : footprintSum e.encoded = some all) :
    ∃ e1 fetched,
      GetNewAndDeleteStaleEncodingResults e b = Outcome.ret e1 fetched
      ∧ e1.encoded = e.encoded.filter (fun kr => !isStale b kr.2)
      ∧ fetched = (e.encoded.filter (fun kr => isFresh b kr.2)).map Prod.snd
      ∧ sweptFrom e e1
      ∧ e1.encodedResultSize < 2 ^ 64
      ∧ ∃ all1, footprintSum e1.encoded = some all1 := by
  obtain ⟨total, htotal⟩ := footprintSum_filter (fun kr => isStale b kr.2) e.encoded all hsizes
  refine ⟨_, _, sweep_eq hcounter htotal, rfl, rfl, ?_, subU64_lt _ _,
    footprintSum_filter _ e.encoded all hsizes⟩
  refine ⟨rfl, e.encoded.filter (fun kr => isStale b kr.2), total, ?_, ?_, htotal, rfl⟩
  · have := List.filter_append_perm (fun kr : requestID × EncodingResult => !isStale b kr.2)
      e.encoded
    simpa using this.symm
  · intro kr hkr
    have := (List.mem_filter.mp hkr).2
    simp only [isStale, Bool.and_eq_true, decide_eq_true_eq] at this
    exact this.1

theorem sweepTrace_exempt (k : requestID) (r : EncodingResult)
    (hstatus : r.Status = status.PendingConfirmation) (e0 : encodedBlobStore) :
    ∀ (bs : List Nat) (e : encodedBlobStore) (all : Nat), sweptFrom e0 e →
      mapGet k e.encoded = some r → e.encodedResultSize < 2 ^ 64 →
      footprintSum e.encoded = some all →
      ∃ tr, sweepTrace e bs = some tr ∧ tr.length = bs.length
        ∧ ∀ st ∈ tr, r ∉ st.2 ∧ mapGet k st.1.encoded = some r ∧ sweptFrom e0 st.1 := by
  intro bs
  induction bs with
  | nil =>
    intro e all _ _ _ _
    exact ⟨[], rfl, rfl, by simp⟩
  | cons b bs ih =>
    intro e all hfrom hstored hcounter hsizes
    obtain ⟨e1, fetched, hsweep, henc, hfetched, hswept, hcounter1, all1, hsizes1⟩ :=
      sweep_step b hcounter hsizes
    have hstored1 : mapGet k e1.encoded = some r := by
      rw [henc]
      exact mapGet_filter_some _ (by simp [isStale_false_of_pending hstatus]) _ hstored
    have hfrom1 : sweptFrom e0 e1 := sweptFrom_trans hfrom hswept
    obtain ⟨tr, htr, hlen, hall⟩ := ih e1 all1 hfrom1 hstored1 hcounter1 hsizes1
    refine ⟨(e1, fetched) :: tr, ?_, by simp [hlen], ?_⟩
    · simp only [sweepTrace, hsweep, htr, Option.map_some']
    · intro st hst
      rcases List.mem_cons.mp hst with h | h
      · subst h
        refine ⟨?_, hstored1, hfrom1⟩
        intro hmem
        rw [hfetched] at hmem
        obtain ⟨kr, hkr, hr2⟩ := List.mem_map.mp hmem
        have hf := isFresh_status (List.mem_filter.mp hkr).2
        rw [hr2, hstatus] at hf
        exact absurd hf.1 (by decide)
      · exact hall st h

/-- C5: for every store (with a `uint64` counter and defined footprints of its results) in
which the identity `k` is bound to a result `r` that is pending confirmation, and for every
sequence of sweeps at arbitrary block numbers, every sweep returns, none returns `r`, and
after each of them `k` is still bound to `r` itself while the store differs from the initial
one only by the removal of results pending dispersal, whose footprints are exactly what has
been subtracted from the counter (so the footprint of `r` is still counted). -/
theorem pending_confirmation_exempt (e : encodedBlobStore) (k : requestID)
    (r : EncodingResult) (bs : List Nat) (all : Nat)
    (hstored : mapGet k e.encoded = some r)
    (hstatus : r.Status = status.PendingConfirmation)
    (hcounter : e.encodedResultSize < 2 ^ 64)
    (hsizes : footprintSum e.encoded = some all) :
    ∃ tr, sweepTrace e bs = some tr ∧ tr.length = bs.length
      ∧ ∀ st ∈ tr, r ∉ st.2 ∧ mapGet k st.1.encoded = some r ∧ sweptFrom e st.1 :=
  sweepTrace_exempt k r hstatus e bs e all (sweptFrom_refl hcounter) hstored hcounter hsizes


/-- Witness of `pending_confirmation_exempt`: `(a, 0)` holds a result of block 5 that is
pending confirmation; sweeps at blocks 10, 8 and 20 delete the two other results and keep
it. -/
theorem pending_confirmation_exempt_witness :
    mapGet "a-m-0" pendingExample.encoded = some confirmedResult
      ∧ confirmedResult.Status = status.PendingConfirmation
      ∧ pendingExample.encodedResultSize < 2 ^ 64
      ∧ footprintSum pendingExample.encoded = some 2304
      ∧ sweepTrace pendingExample [10, 8, 20]
        = some
            [({ requested := [],
                encoded := [("a-m-0", confirmedResult), ("b-m-0", sampleResult keyB 10 [2])],
                encodedResultSize := 1792 }, [sampleResult keyB 10 [2]]),
             ({ requested := [],
                encoded := [("a-m-0", confirmedResult), ("b-m-0", sampleResult keyB 10 [2])],
                encodedResultSize := 1792 }, []),
             ({ requested := [], encoded := [("a-m-0", confirmedResult)],
                encodedResultSize := 768 }, [])]
      ∧ ∃ tr, sweepTrace pendingExample [10, 8, 20] = some tr
          ∧ tr.length = [10, 8, 20].length
          ∧ ∀ st ∈ tr, confirmedResult ∉ st.2
              ∧ mapGet "a-m-0" st.1.encoded = some confirmedResult
              ∧ sweptFrom pendingExample st.1 :=
  ⟨by decide, by decide, by decide, by decide, by decide,
    pending_confirmation_exempt pendingExample "a-m-0" confirmedResult [10, 8, 20] 2304
      (by decide) (by decide) (by decide) (by decide)⟩


theorem footprintSum_split (p q : requestID × EncodingResult → Bool)
    (hqp : ∀ kr, q kr = true → p kr = true) :
    ∀ (m : List (requestID × EncodingResult)) (total : Nat),
      footprintSum (m.filter p) = some total →
      ∃ t1 t2, footprintSum (m.filter q) = some t1
        ∧ footprintSum ((m.filter (fun kr => !q kr)).filter p) = some t2
        ∧ total = t1 + t2 := by
  intro m
  induction m with
  | nil =>
    intro total h
    simp only [List.filter_nil, footprintSum, Option.some.injEq] at h
    exact ⟨0, 0, rfl, rfl, by omega⟩
  | cons kv rest ih =>
    obtain ⟨k, r⟩ := kv
    intro total h
    by_cases hq : q (k, r) = true
    · have hp := hqp _ hq
      rw [List.filter_cons_of_pos hp, footprintSum_cons] at h
      cases hn : getChunksSize r with
      | none => simp [hn] at h
      | some n =>
        cases ht : footprintSum (rest.filter p) with
        | none => simp [hn, ht] at h
        | some t =>
          simp only [hn, ht, Option.some.injEq] at h
          obtain ⟨t1, t2, h1, h2, h3⟩ := ih t ht
          refine ⟨n + t1, t2, ?_, ?_, by omega⟩
          · rw [List.filter_cons_of_pos hq, footprintSum_cons, hn, h1]
          · rw [List.filter_cons_of_neg (by simp [hq])]
            exact h2
    · by_cases hp : p (k, r) = true
      · rw [List.filter_cons_of_pos hp, footprintSum_cons] at h
        cases hn : getChunksSize r with
        | none => simp [hn] at h
        | some n =>
          cases ht : footprintSum (rest.filter p) with
          | none => simp [hn, ht] at h
          | some t =>
            simp only [hn, ht, Option.some.injEq] at h
            obtain ⟨t1, t2, h1, h2, h3⟩ := ih t ht
            refine ⟨t1, n + t2, ?_, ?_, by omega⟩
            · rw [List.filter_cons_of_neg hq]
              exact h1
            · rw [List.filter_cons_of_pos (by simp [hq]), List.filter_cons_of_pos hp,
                footprintSum_cons, hn, h2]
      · rw [List.filter_cons_of_neg hp] at h
        obtain ⟨t1, t2, h1, h2, h3⟩ := ih total h
        refine ⟨t1, t2, ?_, ?_, h3⟩
        · rw [List.filter_cons_of_neg hq]
          exact h1
        · rw [List.filter_cons_of_pos (by simp [hq]), List.filter_cons_of_neg hp]
          exact h2

theorem lifecycle_counter {c n t1 t2 : Nat} (hc : c < 2 ^ 64) :
    subU64 (subU64 (subU64 (addU64 c n) t1) t2) n = subU64 c (t1 + t2) := by
  unfold subU64 addU64
  norm_num at hc ⊢
  omega


/-- C7 (amended): for every blob key `A` and every result `r` for `(A, 0)` with reference
block 100, status pending dispersal and a defined footprint `n`, starting from a store with
no result for `(A, 0)` and counter `c`: after `PutEncodingRequest(A, 0)`,
`HasEncodingRequested(A, 0, m)` is true for every `m`; `PutEncodingResult(r)` succeeds and
the counter becomes `c + n`; `GetEncodingResult(A, 0)` returns `r`; the sweep at 100 returns
`r` and keeps it stored; `MarkEncodedResultPendingConfirmation(A, 0)` succeeds; the sweep at
101 neither returns nor deletes `r`; `DeleteEncodingResult(A, 0)` removes it, and the counter
is then `c` minus the footprints of the other results that were pending dispersal with a
reference block below 101 (removed by the two sweeps), hence `c` again when there is no such
result. -/
theorem lifecycle_round_trip (e : encodedBlobStore) (blobKey : BlobKey) (r : EncodingResult)
    (metadata : BlobMetadata) (quorumInfo : BlobQuorumInfo) (n stale : Nat)
    (hmetadata : r.BlobMetadata = some metadata)
    (hblob : metadata.BlobHash = blobKey.BlobHash)
    (hmeta : metadata.MetadataHash = blobKey.MetadataHash)
    (hquorumInfo : r.BlobQuorumInfo = some quorumInfo)
    (hquorum : quorumInfo.QuorumID = 0)
    (hblock : r.ReferenceBlockNumber = 100)
    (hstatus : r.Status = status.PendingDispersal)
    (hn : getChunksSize r = some n)
    (habsent : mapGet (getRequestID blobKey 0) e.encoded = none)
    (hcounter : e.encodedResultSize < 2 ^ 64)
    (hstale : footprintSum (e.encoded.filter (fun kr => isStale 101 kr.2)) = some stale) :
    (∀ m, HasEncodingRequested (PutEncodingRequest e blobKey 0) blobKey 0 m = true)
    ∧ ∃ e2 e3 fetched3 e4 e5 fetched5 e6,
        PutEncodingResult (PutEncodingRequest e blobKey 0) r = Outcome.ret e2 none
        ∧ e2.encodedResultSize = addU64 e.encodedResultSize n
        ∧ GetEncodingResult e2 blobKey 0 = Except.ok r
        ∧ GetNewAndDeleteStaleEncodingResults e2 100 = Outcome.ret e3 fetched3
        ∧ r ∈ fetched3
        ∧ mapGet (getRequestID blobKey 0) e3.encoded = some r
        ∧ MarkEncodedResultPendingConfirmation e3 blobKey 0 = (e4, none)
        ∧ GetNewAndDeleteStaleEncodingResults e4 101 = Outcome.ret e5 fetched5
        ∧ r ∉ fetched5
        ∧ { r with Status := status.PendingConfirmation } ∉ fetched5
        ∧ mapGet (getRequestID blobKey 0) e5.encoded
            = some { r with Status := status.PendingConfirmation }
        ∧ DeleteEncodingResult e5 blobKey 0 = Outcome.ret e6 ()
        ∧ mapGet (getRequestID blobKey 0) e6.encoded = none
        ∧ e6.encodedResultSize = subU64 e.encodedResultSize stale
        ∧ (e.encoded.filter (fun kr => isStale 101 kr.2) = [] →
            e6.encodedResultSize = e.encodedResultSize) := by
  have hkey : getRequestID
      { BlobHash := metadata.BlobHash, MetadataHash := metadata.MetadataHash }
      quorumInfo.QuorumID = getRequestID blobKey 0 := by
    rw [hblob, hmeta, hquorum]
  have hsplit := footprintSum_split (fun kr => isStale 101 kr.2) (fun kr => isStale 100 kr.2)
    (by
      intro kr h
      simp only [isStale, Bool.and_eq_true, decide_eq_true_eq] at h ⊢
      exact ⟨h.1, by omega⟩)
    e.encoded stale hstale
  obtain ⟨t1, t2, ht1, ht2, hsum⟩ := hsplit
  have hr100 : isStale 100 r = false := by simp [isStale, hblock]
  have hrfresh : isFresh 100 r = true := by simp [isFresh, hblock, hstatus]
  have habsent1 : mapGet (getRequestID blobKey 0)
      (e.encoded.filter (fun kr => !isStale 100 kr.2)) = none :=
    mapGet_filter_none _ habsent
  have habsent2 : mapGet (getRequestID blobKey 0)
      ((e.encoded.filter (fun kr => !isStale 100 kr.2)).filter
        (fun kr => !isStale 101 kr.2)) = none :=
    mapGet_filter_none _ habsent1
  -- PutEncodingResult
  have h2 : PutEncodingResult (PutEncodingRequest e blobKey 0) r =
      Outcome.ret
        { requested := setDelete (getRequestID blobKey 0)
            (setAdd (getRequestID blobKey 0) e.requested),
          encoded := (getRequestID blobKey 0, r) :: e.encoded,
          encodedResultSize := addU64 e.encodedResultSize n } none := by
    simp only [PutEncodingResult, PutEncodingRequest, hmetadata, hquorumInfo, hkey]
    rw [if_pos (mem_setAdd.mpr (Or.inl rfl))]
    simp only [habsent, hn, mapSet, mapDelete_of_mapGet_none habsent]
  -- sweep at 100
  have h3 := @sweep_eq
    { requested := setDelete (getRequestID blobKey 0)
        (setAdd (getRequestID blobKey 0) e.requested),
      encoded := (getRequestID blobKey 0, r) :: e.encoded,
      encodedResultSize := addU64 e.encodedResultSize n } 100 t1
    (Nat.mod_lt _ (by norm_num))
    (by
      simp only []
      rw [List.filter_cons_of_neg (by simp [hr100])]
      exact ht1)
  simp only [] at h3
  rw [List.filter_cons_of_pos (by simp [hr100]),
    @List.filter_cons_of_pos _ (fun kr => isFresh 100 kr.2) (getRequestID blobKey 0, r) _
      hrfresh] at h3
  -- mark
  have h4 : MarkEncodedResultPendingConfirmation
      { requested := setDelete (getRequestID blobKey 0)
          (setAdd (getRequestID blobKey 0) e.requested),
        encoded := (getRequestID blobKey 0, r)
          :: e.encoded.filter (fun kr => !isStale 100 kr.2),
        encodedResultSize := subU64 (addU64 e.encodedResultSize n) t1 } blobKey 0 =
      ({ requested := setDelete (getRequestID blobKey 0)
          (setAdd (getRequestID blobKey 0) e.requested),
         encoded := (getRequestID blobKey 0, { r with Status := status.PendingConfirmation })
          :: e.encoded.filter (fun kr => !isStale 100 kr.2),
         encodedResultSize := subU64 (addU64 e.encodedResultSize n) t1 }, none) := by
    simp only [MarkEncodedResultPendingConfirmation, mapGet_cons, if_true, markPending_cons,
      markPending_of_mapGet_none habsent1]
  -- sweep at 101
  have hp101 : isStale 101 { r with Status := status.PendingConfirmation } = false :=
    isStale_false_of_pending rfl
  have hf101 : isFresh 101 { r with Status := status.PendingConfirmation } = false :=
    isFresh_false_of_pending rfl
  have h5 := @sweep_eq
    { requested := setDelete (getRequestID blobKey 0)
        (setAdd (getRequestID blobKey 0) e.requested),
      encoded := (getRequestID blobKey 0, { r with Status := status.PendingConfirmation })
        :: e.encoded.filter (fun kr => !isStale 100 kr.2),
      encodedResultSize := subU64 (addU64 e.encodedResultSize n) t1 } 101 t2
    (subU64_lt _ _)
    (by
      simp only []
      rw [List.filter_cons_of_neg (by simp [hp101])]
      exact ht2)
  simp only [] at h5
  rw [List.filter_cons_of_pos (by simp [hp101]),
    @List.filter_cons_of_neg _ (fun kr => isFresh 101 kr.2)
      (getRequestID blobKey 0, { r with Status := status.PendingConfirmation }) _
      (by simp [hf101])] at h5
  -- delete
  have h6 : DeleteEncodingResult
      { requested := setDelete (getRequestID blobKey 0)
          (setAdd (getRequestID blobKey 0) e.requested),
        encoded := (getRequestID blobKey 0, { r with Status := status.PendingConfirmation })
          :: (e.encoded.filter (fun kr => !isStale 100 kr.2)).filter
              (fun kr => !isStale 101 kr.2),
        encodedResultSize := subU64 (subU64 (addU64 e.encodedResultSize n) t1) t2 }
      blobKey 0 =
      Outcome.ret
        { requested := setDelete (getRequestID blobKey 0)
            (setAdd (getRequestID blobKey 0) e.requested),
          encoded := (e.encoded.filter (fun kr => !isStale 100 kr.2)).filter
              (fun kr => !isStale 101 kr.2),
          encodedResultSize :=
            subU64 (subU64 (subU64 (addU64 e.encodedResultSize n) t1) t2) n } () := by
    have hn1 : getChunksSize { r with Status := status.PendingConfirmation } = some n := hn
    simp only [DeleteEncodingResult, mapGet_cons, if_true, hn1, mapDelete_cons,
      mapDelete_of_mapGet_none habsent2]
  have hfinal : subU64 (subU64 (subU64 (addU64 e.encodedResultSize n) t1) t2) n
      = subU64 e.encodedResultSize stale := by
    rw [lifecycle_counter hcounter, hsum]
  refine ⟨?_, _, _, _, _, _, _, _, h2, rfl, ?_, h3, List.mem_cons_self _ _, ?_, h4, h5,
    ?_, ?_, ?_, h6, habsent2, hfinal, ?_⟩
  · intro m
    simp [HasEncodingRequested, PutEncodingRequest, mem_setAdd]
  · simp [GetEncodingResult, mapGet_cons]
  · simp [mapGet_cons]
  · intro hmem
    obtain ⟨kr, hkr, hr2⟩ := List.mem_map.mp hmem
    have hf := isFresh_status (List.mem_filter.mp hkr).2
    rw [hr2, hblock] at hf
    omega
  · intro hmem
    obtain ⟨kr, hkr, hr2⟩ := List.mem_map.mp hmem
    have hf := isFresh_status (List.mem_filter.mp hkr).2
    rw [hr2] at hf
    exact status.noConfusion hf.1
  · simp [mapGet_cons]
  · intro hnone
    rw [hnone] at hstale
    simp only [footprintSum, Option.some.injEq] at hstale
    rw [hfinal, ← hstale, subU64_zero hcounter]


/-- C7 (as stated, refuted): the store holds one other result, for `(b, 0)` at block 50 with
footprint 512, and its counter is 512; the lifecycle of `(a, 0)` (request, result at block
100, sweep at 100, mark, sweep at 101, delete) ends with counter 0, not 512, because the
sweep at 100 deleted the stale result of `(b, 0)`. -/
theorem lifecycle_counter_refuted :
    mapGet (getRequestID keyA 0) staleNeighbour.encoded = none
      ∧ staleNeighbour.encodedResultSize = 512
      ∧ run staleNeighbour
          [Call.putEncodingRequest keyA 0, Call.putEncodingResult (sampleResult keyA 100 [1]),
           Call.getNewAndDeleteStaleEncodingResults 100,
           Call.markEncodedResultPendingConfirmation keyA 0,
           Call.getNewAndDeleteStaleEncodingResults 101,
           Call.deleteEncodingResult keyA 0]
        = some { requested := [], encoded := [], encodedResultSize := 0 } := by
  decide

/-- Witness of `lifecycle_round_trip`: the lifecycle of `(a, 0)` in the store that holds a
stale result for `(b, 0)` of footprint 512. -/
theorem lifecycle_round_trip_witness :
    (sampleResult keyA 100 [1]).BlobMetadata
        = some { BlobHash := "a", MetadataHash := "m", Descriptive := 0 }
      ∧ (sampleResult keyA 100 [1]).BlobQuorumInfo = some { QuorumID := 0, SecurityParams := 0 }
      ∧ (sampleResult keyA 100 [1]).ReferenceBlockNumber = 100
      ∧ (sampleResult keyA 100 [1]).Status = status.PendingDispersal
      ∧ getChunksSize (sampleResult keyA 100 [1]) = some 768
      ∧ mapGet (getRequestID keyA 0) staleNeighbour.encoded = none
      ∧ staleNeighbour.encodedResultSize < 2 ^ 64
      ∧ footprintSum (staleNeighbour.encoded.filter (fun kr => isStale 101 kr.2)) = some 512
      ∧ (∀ m, HasEncodingRequested (PutEncodingRequest staleNeighbour keyA 0) keyA 0 m = true)
      ∧ ∃ e2 e3 fetched3 e4 e5 fetched5 e6,
          PutEncodingResult (PutEncodingRequest staleNeighbour keyA 0)
              (sampleResult keyA 100 [1]) = Outcome.ret e2 none
          ∧ e2.encodedResultSize = addU64 staleNeighbour.encodedResultSize 768
          ∧ GetEncodingResult e2 keyA 0 = Except.ok (sampleResult keyA 100 [1])
          ∧ GetNewAndDeleteStaleEncodingResults e2 100 = Outcome.ret e3 fetched3
          ∧ sampleResult keyA 100 [1] ∈ fetched3
          ∧ mapGet (getRequestID keyA 0) e3.encoded = some (sampleResult keyA 100 [1])
          ∧ MarkEncodedResultPendingConfirmation e3 keyA 0 = (e4, none)
          ∧ GetNewAndDeleteStaleEncodingResults e4 101 = Outcome.ret e5 fetched5
          ∧ sampleResult keyA 100 [1] ∉ fetched5
          ∧ { sampleResult keyA 100 [1] with Status := status.PendingConfirmation } ∉ fetched5
          ∧ mapGet (getRequestID keyA 0) e5.encoded
              = some { sampleResult keyA 100 [1] with Status := status.PendingConfirmation }
          ∧ DeleteEncodingResult e5 keyA 0 = Outcome.ret e6 ()
          ∧ mapGet (getRequestID keyA 0) e6.encoded = none
          ∧ e6.encodedResultSize = subU64 staleNeighbour.encodedResultSize 512
          ∧ (staleNeighbour.encoded.filter (fun kr => isStale 101 kr.2) = [] →
              e6.encodedResultSize = staleNeighbour.encodedResultSize) :=
  ⟨by decide, by decide, by decide, by decide, by decide, by decide, by decide, by decide,
    lifecycle_round_trip staleNeighbour keyA (sampleResult keyA 100 [1])
      { BlobHash := "a", MetadataHash := "m", Descriptive := 0 }
      { QuorumID := 0, SecurityParams := 0 } 768 512
      (by decide) (by decide) (by decide) (by decide) (by decide) (by decide) (by decide)
      (by decide) (by decide) (by decide) (by decide)⟩


/-! ## Marking and deleting -/

theorem markPending_idem (id : requestID) (m : List (requestID × EncodingResult)) :
    markPending id (markPending id m) = markPending id m := by
  induction m with
  | nil => rfl
  | cons kv rest ih =>
    obtain ⟨k, r⟩ := kv
    rw [markPending_cons]
    split_ifs with h
    · rw [markPending_cons, if_pos h, ih]
    · rw [markPending_cons, if_neg h, ih]

theorem markPending_length (id : requestID) (m : List (requestID × EncodingResult)) :
    (markPending id m).length = m.length := by
  induction m with
  | nil => rfl
  | cons kv rest ih =>
    obtain ⟨k, r⟩ := kv
    rw [markPending_cons]
    split_ifs with h <;> simp [ih]

/-- C11: `MarkEncodedResultPendingConfirmation` returns an error exactly when the identity
has no stored result, and then returns the store it was given; otherwise it returns no
error, the identity is bound to the same result with status `PendingConfirmation` (every
other field as before), every other binding, the number of bindings, the in-flight set and
the counter are unchanged.  A second call leaves the store of the first call as it is, and
succeeds whenever the first one did. -/
theorem mark_pending_confirmation (e : encodedBlobStore) (blobKey : BlobKey) (quorumID : Nat) :
    ((∃ err, (MarkEncodedResultPendingConfirmation e blobKey quorumID).2 = some err) ↔
        mapGet (getRequestID blobKey quorumID) e.encoded = none)
    ∧ (mapGet (getRequestID blobKey quorumID) e.encoded = none →
        (MarkEncodedResultPendingConfirmation e blobKey quorumID).1 = e)
    ∧ (∀ r, mapGet (getRequestID blobKey quorumID) e.encoded = some r →
        (MarkEncodedResultPendingConfirmation e blobKey quorumID).2 = none
        ∧ mapGet (getRequestID blobKey quorumID)
            (MarkEncodedResultPendingConfirmation e blobKey quorumID).1.encoded
            = some { r with Status := status.PendingConfirmation }
        ∧ (∀ id1, id1 ≠ getRequestID blobKey quorumID →
            mapGet id1 (MarkEncodedResultPendingConfirmation e blobKey quorumID).1.encoded
              = mapGet id1 e.encoded)
        ∧ (MarkEncodedResultPendingConfirmation e blobKey quorumID).1.encoded.length
            = e.encoded.length
        ∧ (MarkEncodedResultPendingConfirmation e blobKey quorumID).1.requested = e.requested
        ∧ (MarkEncodedResultPendingConfirmation e blobKey quorumID).1.encodedResultSize
            = e.encodedResultSize)
    ∧ (MarkEncodedResultPendingConfirmation
          (MarkEncodedResultPendingConfirmation e blobKey quorumID).1 blobKey quorumID).1
        = (MarkEncodedResultPendingConfirmation e blobKey quorumID).1
    ∧ ((MarkEncodedResultPendingConfirmation e blobKey quorumID).2 = none →
        (MarkEncodedResultPendingConfirmation
          (MarkEncodedResultPendingConfirmation e blobKey quorumID).1 blobKey quorumID).2
          = none) := by
  cases hg : mapGet (getRequestID blobKey quorumID) e.encoded with
  | none =>
    have hmark : MarkEncodedResultPendingConfirmation e blobKey quorumID =
        (e, some ("MarkEncodedBlobPendingConfirmation: no such key ("
          ++ getRequestID blobKey quorumID ++ ") in encoded set")) := by
      simp only [MarkEncodedResultPendingConfirmation, hg]
    refine ⟨?_, ?_, ?_, ?_, ?_⟩
    · rw [hmark]; simp
    · intro _; rw [hmark]
    · intro r h; cases h
    · rw [hmark]; simp only []; rw [hmark]
    · intro h; rw [hmark] at h; simp at h
  | some r0 =>
    have hmark : MarkEncodedResultPendingConfirmation e blobKey quorumID =
        ({ e with encoded := markPending (getRequestID blobKey quorumID) e.encoded },
          none) := by
      simp only [MarkEncodedResultPendingConfirmation, hg]
    have hg1 : mapGet (getRequestID blobKey quorumID)
        (markPending (getRequestID blobKey quorumID) e.encoded)
          = some { r0 with Status := status.PendingConfirmation } := by
      rw [mapGet_markPending_self, hg]; rfl
    have hmark2 : MarkEncodedResultPendingConfirmation
        { e with encoded := markPending (getRequestID blobKey quorumID) e.encoded }
        blobKey quorumID =
        ({ e with encoded := markPending (getRequestID blobKey quorumID) e.encoded },
          none) := by
      simp only [MarkEncodedResultPendingConfirmation, hg1, markPending_idem]
    refine ⟨?_, ?_, ?_, ?_, ?_⟩
    · rw [hmark]; simp
    · intro h; cases h
    · intro r h
      cases h
      rw [hmark]
      exact ⟨rfl, hg1, fun id1 hne => mapGet_markPending_ne hne _, markPending_length _ _,
        rfl, rfl⟩
    · rw [hmark]; simp only []; rw [hmark2]
    · intro _; rw [hmark]; simp only []; rw [hmark2]

theorem mapDelete_of_not_mem_keys {β : Type} {k : requestID} {m : List (requestID × β)}
    (h : k ∉ m.map Prod.fst) : mapDelete k m = m := by
  induction m with
  | nil => rfl
  | cons kv rest ih =>
    obtain ⟨k1, v⟩ := kv
    simp only [List.map_cons, List.mem_cons, not_or] at h
    rw [mapDelete_cons, if_neg (fun h1 => h.1 h1.symm), ih h.2]

theorem mapDelete_length {β : Type} {k : requestID} {v : β} :
    ∀ (m : List (requestID × β)), mapWF m → mapGet k m = some v →
      (mapDelete k m).length + 1 = m.length := by
  intro m
  induction m with
  | nil => intro _ h; simp [mapGet] at h
  | cons kv rest ih =>
    obtain ⟨k1, v1⟩ := kv
    intro hwf h
    simp only [mapWF, List.map_cons, List.nodup_cons] at hwf
    rw [mapGet_cons] at h
    rw [mapDelete_cons]
    split_ifs at h ⊢ with h1
    · subst h1
      rw [mapDelete_of_not_mem_keys hwf.1]
      rfl
    · simp only [List.length_cons]
      rw [ih hwf.2 h]

/-- C12: on a store whose result map binds no key twice, if the identity is bound to a
result `r` (with a defined footprint `n`), `DeleteEncodingResult` returns a store in which
the identity is unbound, the number of results is one less, the counter is decreased by `n`,
and every other binding and the in-flight set are unchanged; if the identity is unbound the
operation returns the store it was given. -/
theorem delete_encoding_result (e : encodedBlobStore) (blobKey : BlobKey) (quorumID : Nat)
    (hwf : mapWF e.encoded) :
    (mapGet (getRequestID blobKey quorumID) e.encoded = none →
        DeleteEncodingResult e blobKey quorumID = Outcome.ret e ())
    ∧ (∀ r n, mapGet (getRequestID blobKey quorumID) e.encoded = some r →
        getChunksSize r = some n →
        ∃ e1, DeleteEncodingResult e blobKey quorumID = Outcome.ret e1 ()
          ∧ mapGet (getRequestID blobKey quorumID) e1.encoded = none
          ∧ e1.encoded.length + 1 = e.encoded.length
          ∧ e1.encodedResultSize = subU64 e.encodedResultSize n
          ∧ (∀ id1, id1 ≠ getRequestID blobKey quorumID →
              mapGet id1 e1.encoded = mapGet id1 e.encoded)
          ∧ e1.requested = e.requested) := by
  constructor
  · intro hg
    simp only [DeleteEncodingResult, hg]
  · intro r n hg hn
    have hdel : DeleteEncodingResult e blobKey quorumID =
        Outcome.ret
          { e with encoded := mapDelete (getRequestID blobKey quorumID) e.encoded,
                   encodedResultSize := subU64 e.encodedResultSize n } () := by
      simp only [DeleteEncodingResult, hg, hn]
    exact ⟨_, hdel, mapGet_mapDelete_self _ _, mapDelete_length _ hwf hg, rfl,
      fun id1 hne => mapGet_mapDelete_ne hne _, rfl⟩

/-- Witness of `delete_encoding_result`: deleting `(b, 0)`, of footprint 1024, from the
four-result store. -/
theorem delete_encoding_result_witness :
    mapWF sweepExample.encoded
      ∧ DeleteEncodingResult sweepExample keyB 0
        = Outcome.ret
            { requested := [],
              encoded :=
                [("a-m-0", sampleResult keyA 5 [1]), ("c-m-0", sampleResult keyC 10 []),
                 ("d-m-0", sampleResult keyD 15 [1, 1])],
              encodedResultSize := 768 + 512 + 1024 } ()
      ∧ (mapGet (getRequestID keyB 0) sweepExample.encoded = none →
          DeleteEncodingResult sweepExample keyB 0 = Outcome.ret sweepExample ())
      ∧ (∀ r n, mapGet (getRequestID keyB 0) sweepExample.encoded = some r →
          getChunksSize r = some n →
          ∃ e1, DeleteEncodingResult sweepExample keyB 0 = Outcome.ret e1 ()
            ∧ mapGet (getRequestID keyB 0) e1.encoded = none
            ∧ e1.encoded.length + 1 = sweepExample.encoded.length
            ∧ e1.encodedResultSize = subU64 sweepExample.encodedResultSize n
            ∧ (∀ id1, id1 ≠ getRequestID keyB 0 →
                mapGet id1 e1.encoded = mapGet id1 sweepExample.encoded)
            ∧ e1.requested = sweepExample.requested) :=
  ⟨by unfold mapWF; decide, by decide,
    delete_encoding_result sweepExample keyB 0 (by unfold mapWF; decide)⟩

/-- C13: after `DeleteEncodingRequest` the identity is not in the in-flight set, every other
identity is in the set exactly when it was before, and the result map and the counter are
unchanged; if the identity had no marker the operation returns the store it was given. -/
theorem delete_encoding_request (e : encodedBlobStore) (blobKey : BlobKey) (quorumID : Nat) :
    getRequestID blobKey quorumID ∉ (DeleteEncodingRequest e blobKey quorumID).requested
    ∧ (∀ id1, id1 ≠ getRequestID blobKey quorumID →
        (id1 ∈ (DeleteEncodingRequest e blobKey quorumID).requested ↔ id1 ∈ e.requested))
    ∧ (DeleteEncodingRequest e blobKey quorumID).encoded = e.encoded
    ∧ (DeleteEncodingRequest e blobKey quorumID).encodedResultSize = e.encodedResultSize
    ∧ (getRequestID blobKey quorumID ∉ e.requested →
        DeleteEncodingRequest e blobKey quorumID = e) := by
  unfold DeleteEncodingRequest
  split_ifs with hin
  · refine ⟨fun h => (mem_setDelete.mp h).1 rfl, ?_, rfl, rfl, fun h => absurd hin h⟩
    intro id1 hne
    exact ⟨fun h => (mem_setDelete.mp h).2, fun h => mem_setDelete.mpr ⟨hne, h⟩⟩
  · exact ⟨hin, fun _ _ => Iff.rfl, rfl, rfl, fun _ => rfl⟩


/-! ## Status of a stored result across one operation -/

/-- C14 (as stated, refuted): after request, result, mark and a second request for `(a, 0)`
(a state reached from the empty store) the identity holds a result that is pending
confirmation; `PutEncodingResult` of a new result for `(a, 0)` then replaces it, and the
identity holds a result that is pending dispersal. -/
theorem status_monotonicity_refuted :
    run newEncodedBlobStore
        [Call.putEncodingRequest keyA 0, Call.putEncodingResult (sampleResult keyA 100 [1]),
         Call.markEncodedResultPendingConfirmation keyA 0, Call.putEncodingRequest keyA 0]
      = some
          { requested := ["a-m-0"],
            encoded :=
              [("a-m-0",
                { sampleResult keyA 100 [1] with Status := status.PendingConfirmation })],
            encodedResultSize := 768 }
    ∧ step
        { requested := ["a-m-0"],
          encoded :=
            [("a-m-0", { sampleResult keyA 100 [1] with Status := status.PendingConfirmation })],
          encodedResultSize := 768 }
        (Call.putEncodingResult (sampleResult keyA 101 []))
      = some
          { requested := [], encoded := [("a-m-0", sampleResult keyA 101 [])],
            encodedResultSize := 768 }
    ∧ (sampleResult keyA 101 []).Status = status.PendingDispersal := by
  decide

/-- C14 (amended): for every store (in particular every store reached from the empty one),
every identity and every single store operation that is not a successful `PutEncodingResult`
replacing the result of that identity by one that is pending dispersal: if the identity's
stored result is pending confirmation before the operation and the identity still has a
stored result after it, that result is pending confirmation. -/
theorem status_monotone_step (e e1 : encodedBlobStore) (c : Call) (id : requestID)
    (r r1 : EncodingResult)
    (hcall : ∀ result, c = Call.putEncodingResult result → resultRequestID result = some id →
      id ∈ e.requested → result.Status = status.PendingConfirmation)
    (hstep : step e c = some e1)
    (hbefore : mapGet id e.encoded = some r)
    (hstatus : r.Status = status.PendingConfirmation)
    (hafter : mapGet id e1.encoded = some r1) :
    r1.Status = status.PendingConfirmation := by
  have hsame : mapGet id e1.encoded = mapGet id e.encoded →
      r1.Status = status.PendingConfirmation := by
    intro h
    rw [h, hbefore] at hafter
    cases hafter
    exact hstatus
  cases c with
  | putEncodingRequest blobKey quorumID =>
    simp only [step, Option.some.injEq] at hstep
    subst hstep
    exact hsame rfl
  | putEncodingResult result =>
    have hcall1 := hcall result rfl
    simp only [step, PutEncodingResult] at hstep
    unfold resultRequestID at hcall1
    cases hm : result.BlobMetadata with
    | none => simp [hm, Outcome.store] at hstep
    | some metadata =>
      cases hq : result.BlobQuorumInfo with
      | none => simp [hm, hq, Outcome.store] at hstep
      | some quorumInfo =>
        simp only [hm, hq, Option.some.injEq] at hstep hcall1
        split_ifs at hstep with hin
        · by_cases hid : getRequestID
              { BlobHash := metadata.BlobHash, MetadataHash := metadata.MetadataHash }
              quorumInfo.QuorumID = id
          · have hres : result.Status = status.PendingConfirmation :=
              hcall1 hid (hid ▸ hin)
            rw [hid, hbefore] at hstep
            simp only [Outcome.store, Option.some.injEq] at hstep
            subst hstep
            simp only [mapGet_mapSet_self, Option.some.injEq] at hafter
            subst hafter
            exact hres
          · have hne : id ≠ getRequestID
                { BlobHash := metadata.BlobHash, MetadataHash := metadata.MetadataHash }
                quorumInfo.QuorumID := fun h => hid h.symm
            cases hg : mapGet (getRequestID
                { BlobHash := metadata.BlobHash, MetadataHash := metadata.MetadataHash }
                quorumInfo.QuorumID) e.encoded with
            | some old =>
              simp only [hg, Outcome.store, Option.some.injEq] at hstep
              subst hstep
              exact hsame (mapGet_mapSet_ne hne _ _)
            | none =>
              simp only [hg] at hstep
              cases hn : getChunksSize result with
              | none => simp [hn, Outcome.store] at hstep
              | some n =>
                simp only [hn, Outcome.store, Option.some.injEq] at hstep
                subst hstep
                exact hsame (mapGet_mapSet_ne hne _ _)
        · simp only [Outcome.store, Option.some.injEq] at hstep
          subst hstep
          exact hsame rfl
  | deleteEncodingRequest blobKey quorumID =>
    simp only [step, DeleteEncodingRequest, Option.some.injEq] at hstep
    subst hstep
    apply hsame
    split_ifs <;> rfl
  | deleteEncodingResult blobKey quorumID =>
    simp only [step, DeleteEncodingResult] at hstep
    cases hg : mapGet (getRequestID blobKey quorumID) e.encoded with
    | none =>
      simp only [hg, Outcome.store, Option.some.injEq] at hstep
      subst hstep
      exact hsame rfl
    | some old =>
      simp only [hg] at hstep
      cases hn : getChunksSize old with
      | none => simp [hn, Outcome.store] at hstep
      | some n =>
        simp only [hn, Outcome.store, Option.some.injEq] at hstep
        subst hstep
        by_cases hid : id = getRequestID blobKey quorumID
        · simp only [hid, mapGet_mapDelete_self] at hafter
          cases hafter
        · exact hsame (mapGet_mapDelete_ne hid _)
  | markEncodedResultPendingConfirmation blobKey quorumID =>
    simp only [step, MarkEncodedResultPendingConfirmation, Option.some.injEq] at hstep
    cases hg : mapGet (getRequestID blobKey quorumID) e.encoded with
    | none =>
      simp only [hg] at hstep
      subst hstep
      exact hsame rfl
    | some old =>
      simp only [hg] at hstep
      subst hstep
      by_cases hid : id = getRequestID blobKey quorumID
      · simp only [hid, mapGet_markPending_self, hg, Option.map_some', Option.some.injEq]
          at hafter
        rw [← hafter]
      · exact hsame (mapGet_markPending_ne hid _)
  | getNewAndDeleteStaleEncodingResults blockNumber =>
    simp only [step, GetNewAndDeleteStaleEncodingResults] at hstep
    cases hs : sweepLoop blockNumber e.encoded e.encodedResultSize with
    | none => simp [hs, Outcome.store] at hstep
    | some out =>
      simp only [hs, Outcome.store, Option.some.injEq] at hstep
      subst hstep
      apply hsame
      simp only []
      rw [(sweepLoop_some blockNumber _ _ _ hs).1, hbefore]
      exact mapGet_filter_some _ (by simp [isStale_false_of_pending hstatus]) _ hbefore

/-- Witness of `status_monotone_step`: a sweep at block 200 over the store in which `(a, 0)`
holds a result of block 5 that is pending confirmation. -/
theorem status_monotone_step_witness :
    (∀ result, Call.getNewAndDeleteStaleEncodingResults 200 = Call.putEncodingResult result →
        resultRequestID result = some "a-m-0" → "a-m-0" ∈ pendingExample.requested →
        result.Status = status.PendingConfirmation)
      ∧ step pendingExample (Call.getNewAndDeleteStaleEncodingResults 200)
        = some { requested := [], encoded := [("a-m-0", confirmedResult)],
                 encodedResultSize := 768 }
      ∧ mapGet "a-m-0" pendingExample.encoded = some confirmedResult
      ∧ confirmedResult.Status = status.PendingConfirmation
      ∧ mapGet "a-m-0" [("a-m-0", confirmedResult)] = some confirmedResult
      ∧ confirmedResult.Status = status.PendingConfirmation :=
  ⟨fun _ h => Call.noConfusion h, by decide, by decide, by decide, by decide,
    status_monotone_step pendingExample
      { requested := [], encoded := [("a-m-0", confirmedResult)], encodedResultSize := 768 }
      (Call.getNewAndDeleteStaleEncodingResults 200) "a-m-0" confirmedResult confirmedResult
      (fun _ h => Call.noConfusion h) (by decide) (by decide) (by decide) (by decide)⟩

/-! ## Byte footprint -/

theorem chunksLoop_some (frames : List Frame) :
    ∀ size, size < 2 ^ 64 →
      chunksLoop (frames.map some) size
        = some ((size + 256 * (frames.map (fun f => f.Coeffs.length)).sum) % 2 ^ 64) := by
  induction frames with
  | nil =>
    intro size h
    simp only [List.map_nil, chunksLoop, List.sum_nil, Nat.mul_zero, Nat.add_zero]
    rw [Nat.mod_eq_of_lt h]
  | cons f rest ih =>
    intro size h
    simp only [List.map_cons, chunksLoop, List.sum_cons]
    rw [ih (addU64 size (f.Coeffs.length * 256 % 2 ^ 64))
      (by unfold addU64; exact Nat.mod_lt _ (by norm_num))]
    congr 1
    unfold addU64
    norm_num
    omega

/-- C15: for every result whose chunks are all non-nil, `getChunksSize` is 256 times the
total number of coefficients of its chunks plus 512, reduced modulo `2 ^ 64`; two results
whose chunks have the same sequence of lengths have the same footprint; and a result
without chunks has footprint 512. -/
theorem chunks_size_formula (r : EncodingResult) (frames : List Frame)
    (hchunks : r.Chunks = frames.map some) :
    getChunksSize r
        = some ((256 * (frames.map (fun f => f.Coeffs.length)).sum + 512) % 2 ^ 64)
    ∧ (∀ (r2 : EncodingResult) (frames2 : List Frame), r2.Chunks = frames2.map some →
        frames2.map (fun f => f.Coeffs.length) = frames.map (fun f => f.Coeffs.length) →
        getChunksSize r2 = getChunksSize r)
    ∧ (frames = [] → getChunksSize r = some 512) := by
  have hformula : ∀ (r0 : EncodingResult) (frames0 : List Frame),
      r0.Chunks = frames0.map some →
      getChunksSize r0
        = some ((256 * (frames0.map (fun f => f.Coeffs.length)).sum + 512) % 2 ^ 64) := by
    intro r0 frames0 h0
    unfold getChunksSize
    rw [h0, chunksLoop_some frames0 0 (by norm_num)]
    simp only [Option.map_some', Option.some.injEq]
    unfold addU64
    norm_num
  refine ⟨hformula r frames hchunks, ?_, ?_⟩
  · intro r2 frames2 h2 hlen
    rw [hformula r2 frames2 h2, hformula r frames hchunks, hlen]
  · intro hnil
    rw [hformula r frames hchunks, hnil]
    rfl

/-- Witness of `chunks_size_formula`: a result with chunks of 1 and 2 coefficients. -/
theorem chunks_size_formula_witness :
    (sampleResult keyA 100 [1, 2]).Chunks
        = [({ Coeffs := [0], Proof := 0 } : Frame), { Coeffs := [0, 0], Proof := 0 }].map some
      ∧ getChunksSize (sampleResult keyA 100 [1, 2]) = some 1280
      ∧ getChunksSize (sampleResult keyA 100 [1, 2])
        = some ((256 * (([({ Coeffs := [0], Proof := 0 } : Frame),
            { Coeffs := [0, 0], Proof := 0 }]).map (fun f => f.Coeffs.length)).sum + 512)
            % 2 ^ 64) :=
  ⟨by decide, by decide,
    (chunks_size_formula (sampleResult keyA 100 [1, 2])
      [{ Coeffs := [0], Proof := 0 }, { Coeffs := [0, 0], Proof := 0 }] (by decide)).1⟩


/-! ## Key derivation -/

theorem digitChar_value : ∀ k, k < 10 → (Nat.digitChar k).toNat - 48 = k := by
  decide

theorem toDigitsCore_value :
    ∀ (fuel n : Nat) (ds : List Char), n < fuel →
      (Nat.toDigitsCore 10 fuel n ds).foldl (fun acc c => 10 * acc + (c.toNat - 48)) 0
        = ds.foldl (fun acc c => 10 * acc + (c.toNat - 48)) n := by
  intro fuel
  induction fuel with
  | zero => intro n ds h; omega
  | succ fuel ih =>
    intro n ds h
    simp only [Nat.toDigitsCore]
    split_ifs with hz
    · simp only [List.foldl_cons, Nat.mul_zero, Nat.zero_add]
      rw [digitChar_value _ (Nat.mod_lt _ (by norm_num))]
      congr 1
      omega
    · rw [ih (n / 10) _ (by omega)]
      simp only [List.foldl_cons]
      rw [digitChar_value _ (Nat.mod_lt _ (by norm_num))]
      congr 1
      omega

theorem digitsValue_toDigits (n : Nat) : digitsValue (Nat.toDigits 10 n) = n := by
  unfold digitsValue Nat.toDigits
  rw [toDigitsCore_value (n + 1) n [] (by omega)]
  rfl

theorem repr_injective {a b : Nat} (h : Nat.repr a = Nat.repr b) : a = b := by
  unfold Nat.repr at h
  have hd : Nat.toDigits 10 a = Nat.toDigits 10 b := by
    have := congrArg String.data h
    simpa [List.asString] using this
  rw [← digitsValue_toDigits a, ← digitsValue_toDigits b, hd]

theorem getRequestID_data (key : BlobKey) (quorumID : Nat) :
    (getRequestID key quorumID).data
      = key.BlobHash.data ++ ('-' :: (key.MetadataHash.data ++ ('-' :: (Nat.repr quorumID).data)))
      := by
  simp [getRequestID, BlobKey.String, String.data_append]

/-- C16 (amended): for all blob keys whose `BlobHash` values have the same length and whose
`MetadataHash` values have the same length (fixed-width hashes) and all quorum IDs,
`getRequestID` gives the same identity exactly when the blob keys (both hashes) and the
quorum IDs are equal. -/
theorem request_id_injective (k1 k2 : BlobKey) (q1 q2 : Nat)
    (hblob : k1.BlobHash.length = k2.BlobHash.length)
    (hmeta : k1.MetadataHash.length = k2.MetadataHash.length) :
    getRequestID k1 q1 = getRequestID k2 q2 ↔ k1 = k2 ∧ q1 = q2 := by
  constructor
  · intro h
    have hd := congrArg String.data h
    rw [getRequestID_data, getRequestID_data] at hd
    obtain ⟨h1, h2⟩ := List.append_inj hd hblob
    simp only [List.cons.injEq, true_and] at h2
    obtain ⟨h3, h4⟩ := List.append_inj h2 hmeta
    simp only [List.cons.injEq, true_and] at h4
    have hb : k1.BlobHash = k2.BlobHash := String.ext h1
    have hm : k1.MetadataHash = k2.MetadataHash := String.ext h3
    have hq : q1 = q2 := repr_injective (String.ext h4)
    refine ⟨?_, hq⟩
    cases k1
    cases k2
    simp only [BlobKey.mk.injEq]
    exact ⟨hb, hm⟩
  · rintro ⟨hk, hq⟩
    rw [hk, hq]

/-- Witness of `request_id_injective`: the keys `a` and `b`, whose hashes are one character
wide, at quorum 0. -/
theorem request_id_injective_witness :
    keyA.BlobHash.length = keyB.BlobHash.length
      ∧ keyA.MetadataHash.length = keyB.MetadataHash.length
      ∧ (getRequestID keyA 0 = getRequestID keyB 0 ↔ keyA = keyB ∧ 0 = 0) :=
  ⟨by decide, by decide, request_id_injective keyA keyB 0 0 (by decide) (by decide)⟩


/-- C16 (as stated, refuted): the keys with hashes `("a-b", "c")` and `("a", "b-c")` are
different and yet `getRequestID` gives both the identity `a-b-c-0` at quorum 0, because a
hash that contains the separator makes the rendering ambiguous. -/
theorem request_id_injective_refuted :
    getRequestID { BlobHash := "a-b", MetadataHash := "c" } 0
        = getRequestID { BlobHash := "a", MetadataHash := "b-c" } 0
      ∧ ({ BlobHash := "a-b", MetadataHash := "c" } : BlobKey)
        ≠ { BlobHash := "a", MetadataHash := "b-c" }
      ∧ ¬ (getRequestID { BlobHash := "a-b", MetadataHash := "c" } 0
            = getRequestID { BlobHash := "a", MetadataHash := "b-c" } 0
          ↔ ({ BlobHash := "a-b", MetadataHash := "c" } : BlobKey)
              = { BlobHash := "a", MetadataHash := "b-c" } ∧ 0 = 0) := by
  decide

/-! ## Nil pointers -/

theorem chunksLoop_of_nonNil :
    ∀ (chunks : List (Option Frame)) (size : Nat), (∀ ch ∈ chunks, ch ≠ none) →
      ∃ n, chunksLoop chunks size = some n := by
  intro chunks
  induction chunks with
  | nil => intro size _; exact ⟨size, rfl⟩
  | cons ch rest ih =>
    intro size h
    cases ch with
    | none => exact absurd rfl (h none (List.mem_cons_self _ _))
    | some frame =>
      simp only [chunksLoop]
      exact ih _ (fun ch hch => h ch (List.mem_cons_of_mem _ hch))

theorem getChunksSize_of_nonNil {r : EncodingResult} (h : chunksNonNil r) :
    ∃ n, getChunksSize r = some n := by
  obtain ⟨n, hn⟩ := chunksLoop_of_nonNil r.Chunks 0 h
  exact ⟨addU64 n (256 * 2), by simp [getChunksSize, hn]⟩

theorem sweepLoop_of_nonNil (b : Nat) :
    ∀ (m : List (requestID × EncodingResult)) (size : Nat),
      (∀ kr ∈ m, chunksNonNil kr.2) → ∃ out, sweepLoop b m size = some out := by
  intro m
  induction m with
  | nil => intro size _; exact ⟨_, rfl⟩
  | cons kv rest ih =>
    obtain ⟨k, r⟩ := kv
    intro size h
    have hrest : ∀ kr ∈ rest, chunksNonNil kr.2 :=
      fun kr hkr => h kr (List.mem_cons_of_mem _ hkr)
    rw [sweepLoop_cons]
    split_ifs with h1 h2 h3
    · obtain ⟨out, hout⟩ := ih size hrest
      exact ⟨_, by rw [hout]; rfl⟩
    · obtain ⟨out, hout⟩ := ih size hrest
      exact ⟨_, by rw [hout]; rfl⟩
    · obtain ⟨n, hn⟩ := getChunksSize_of_nonNil (h (k, r) (List.mem_cons_self _ _))
      simp only [hn]
      exact ih _ hrest
    · obtain ⟨out, hout⟩ := ih size hrest
      exact ⟨_, by rw [hout]; rfl⟩

theorem mem_markPending {id : requestID} {kr : requestID × EncodingResult} :
    ∀ (m : List (requestID × EncodingResult)), kr ∈ markPending id m →
      ∃ kr0 ∈ m, kr.2.Chunks = kr0.2.Chunks := by
  intro m
  induction m with
  | nil => intro h; simp [markPending] at h
  | cons kv rest ih =>
    obtain ⟨k, r⟩ := kv
    intro h
    rw [markPending_cons] at h
    split_ifs at h with hk
    · rcases List.mem_cons.mp h with heq | hmem
      · exact ⟨(k, r), List.mem_cons_self _ _, by rw [heq]⟩
      · obtain ⟨kr0, h0, h1⟩ := ih hmem
        exact ⟨kr0, List.mem_cons_of_mem _ h0, h1⟩
    · rcases List.mem_cons.mp h with heq | hmem
      · exact ⟨(k, r), List.mem_cons_self _ _, by rw [heq]⟩
      · obtain ⟨kr0, h0, h1⟩ := ih hmem
        exact ⟨kr0, List.mem_cons_of_mem _ h0, h1⟩

theorem mem_mapSet {β : Type} {k : requestID} {v : β} {m : List (requestID × β)}
    {kv : requestID × β} (h : kv ∈ mapSet k v m) : kv = (k, v) ∨ kv ∈ m := by
  rcases List.mem_cons.mp h with heq | hmem
  · exact Or.inl heq
  · exact Or.inr (List.mem_filter.mp hmem).1

/-- C17 (as stated, refuted): `PutEncodingResult` panics on a result whose `BlobMetadata` is
nil, on one whose `BlobQuorumInfo` is nil, and on the first result of an identity when it
holds a nil chunk; after such a result has been stored by overwriting (no footprint is
computed then), `DeleteEncodingResult` and the sweep panic on it. -/
theorem panic_on_nil_pointers :
    PutEncodingResult (PutEncodingRequest newEncodedBlobStore keyA 0) nilMetadataResult
        = Outcome.panicked
      ∧ PutEncodingResult (PutEncodingRequest newEncodedBlobStore keyA 0) nilQuorumResult
        = Outcome.panicked
      ∧ PutEncodingResult (PutEncodingRequest newEncodedBlobStore keyA 0) nilChunkResult
        = Outcome.panicked
      ∧ run newEncodedBlobStore
          [Call.putEncodingRequest keyA 0, Call.putEncodingResult (sampleResult keyA 5 []),
           Call.putEncodingRequest keyA 0, Call.putEncodingResult nilChunkResult]
        = some { requested := [], encoded := [("a-m-0", nilChunkResult)],
                 encodedResultSize := 512 }
      ∧ DeleteEncodingResult
          { requested := [], encoded := [("a-m-0", nilChunkResult)], encodedResultSize := 512 }
          keyA 0 = Outcome.panicked
      ∧ GetNewAndDeleteStaleEncodingResults
          { requested := [], encoded := [("a-m-0", nilChunkResult)], encodedResultSize := 512 }
          10 = Outcome.panicked := by
  decide

/-- C17 (amended): on every store whose results hold no nil chunk, every state-changing
operation whose argument holds no nil pointer (a result passed to `PutEncodingResult` has
non-nil `BlobMetadata`, `BlobQuorumInfo` and chunks) returns, with a value or an error, and
leaves a store whose results hold no nil chunk.  (The three read operations are total
functions of the store.) -/
theorem no_panic_without_nil (e : encodedBlobStore) (c : Call)
    (hstored : ∀ kr ∈ e.encoded, chunksNonNil kr.2)
    (hresult : ∀ result, c = Call.putEncodingResult result →
      result.BlobMetadata ≠ none ∧ result.BlobQuorumInfo ≠ none ∧ chunksNonNil result) :
    ∃ e1, step e c = some e1 ∧ ∀ kr ∈ e1.encoded, chunksNonNil kr.2 := by
  cases c with
  | putEncodingRequest blobKey quorumID => exact ⟨_, rfl, hstored⟩
  | putEncodingResult result =>
    obtain ⟨hm, hq, hch⟩ := hresult result rfl
    obtain ⟨metadata, hm1⟩ := Option.ne_none_iff_exists'.mp hm
    obtain ⟨quorumInfo, hq1⟩ := Option.ne_none_iff_exists'.mp hq
    obtain ⟨n, hn⟩ := getChunksSize_of_nonNil hch
    simp only [step, PutEncodingResult, hm1, hq1]
    split_ifs with hin
    · have hkeep : ∀ kr ∈ mapSet (getRequestID
          { BlobHash := metadata.BlobHash, MetadataHash := metadata.MetadataHash }
          quorumInfo.QuorumID) result e.encoded, chunksNonNil kr.2 := by
        intro kr hkr
        rcases mem_mapSet hkr with heq | hmem
        · rw [heq]; exact hch
        · exact hstored kr hmem
      cases hg : mapGet (getRequestID
          { BlobHash := metadata.BlobHash, MetadataHash := metadata.MetadataHash }
          quorumInfo.QuorumID) e.encoded with
      | some old => exact ⟨_, rfl, hkeep⟩
      | none =>
        simp only [hn]
        exact ⟨_, rfl, hkeep⟩
    · exact ⟨_, rfl, hstored⟩
  | deleteEncodingRequest blobKey quorumID =>
    refine ⟨_, rfl, ?_⟩
    simp only [DeleteEncodingRequest]
    split_ifs <;> exact hstored
  | deleteEncodingResult blobKey quorumID =>
    simp only [step, DeleteEncodingResult]
    cases hg : mapGet (getRequestID blobKey quorumID) e.encoded with
    | none => exact ⟨_, rfl, hstored⟩
    | some old =>
      obtain ⟨n, hn⟩ := getChunksSize_of_nonNil (hstored _ (mapGet_mem hg))
      simp only [hn]
      exact ⟨_, rfl, fun kr hkr => hstored kr (List.mem_filter.mp hkr).1⟩
  | markEncodedResultPendingConfirmation blobKey quorumID =>
    simp only [step, MarkEncodedResultPendingConfirmation]
    cases hg : mapGet (getRequestID blobKey quorumID) e.encoded with
    | none => exact ⟨_, rfl, hstored⟩
    | some old =>
      refine ⟨_, rfl, ?_⟩
      intro kr hkr
      obtain ⟨kr0, h0, h1⟩ := mem_markPending _ hkr
      intro ch hch
      rw [h1] at hch
      exact hstored kr0 h0 ch hch
  | getNewAndDeleteStaleEncodingResults blockNumber =>
    obtain ⟨out, hout⟩ := sweepLoop_of_nonNil blockNumber e.encoded e.encodedResultSize hstored
    simp only [step, GetNewAndDeleteStaleEncodingResults, hout]
    refine ⟨_, rfl, ?_⟩
    intro kr hkr
    simp only [] at hkr
    rw [(sweepLoop_some blockNumber _ _ _ hout).1] at hkr
    exact hstored kr (List.mem_filter.mp hkr).1

/-- Witness of `no_panic_without_nil`: `PutEncodingResult` of a well-formed result for
`(a, 0)` on the four-result store. -/
theorem no_panic_without_nil_witness :
    (∀ kr ∈ sweepExample.encoded, chunksNonNil kr.2)
      ∧ (∀ result, Call.putEncodingResult (sampleResult keyA 20 [3])
            = Call.putEncodingResult result →
          result.BlobMetadata ≠ none ∧ result.BlobQuorumInfo ≠ none ∧ chunksNonNil result)
      ∧ ∃ e1, step sweepExample (Call.putEncodingResult (sampleResult keyA 20 [3])) = some e1
          ∧ ∀ kr ∈ e1.encoded, chunksNonNil kr.2 :=
  ⟨by unfold chunksNonNil; decide,
    fun result h => by
      cases h
      exact ⟨by decide, by decide, by unfold chunksNonNil; decide⟩,
    no_panic_without_nil sweepExample (Call.putEncodingResult (sampleResult keyA 20 [3]))
      (by unfold chunksNonNil; decide)
      (fun result h => by
        cases h
        exact ⟨by decide, by decide, by unfold chunksNonNil; decide⟩)⟩

/-! ## Lock modes -/

/-- C18 (defect of the code): `DeleteEncodingRequest` opens with `e.mu.RLock()`, the shared
mode, and yet removes a marker from the in-flight set; the five other state-changing
methods take the exclusive mode and the three read methods the shared mode. -/
theorem delete_request_under_shared_lock :
    lockMode Operation.DeleteEncodingRequest = LockMode.shared
      ∧ DeleteEncodingRequest
          { requested := ["a-m-0"], encoded := [], encodedResultSize := 0 } keyA 0
        = { requested := [], encoded := [], encodedResultSize := 0 }
      ∧ lockMode Operation.PutEncodingRequest = LockMode.exclusive
      ∧ lockMode Operation.PutEncodingResult = LockMode.exclusive
      ∧ lockMode Operation.DeleteEncodingResult = LockMode.exclusive
      ∧ lockMode Operation.MarkEncodedResultPendingConfirmation = LockMode.exclusive
      ∧ lockMode Operation.GetNewAndDeleteStaleEncodingResults = LockMode.exclusive
      ∧ lockMode Operation.HasEncodingRequested = LockMode.shared
      ∧ lockMode Operation.GetEncodingResult = LockMode.shared
      ∧ lockMode Operation.GetEncodedResultSize = LockMode.shared := by
  decide


/-! ## Byte accounting without overwrites -/

theorem getChunksSize_lt {r : EncodingResult} {n : Nat} (h : getChunksSize r = some n) :
    n < 2 ^ 64 := by
  unfold getChunksSize at h
  cases hc : chunksLoop r.Chunks 0 with
  | none => simp [hc] at h
  | some size =>
    simp only [hc, Option.map_some', Option.some.injEq] at h
    rw [← h]
    unfold addU64
    exact Nat.mod_lt _ (by norm_num)

theorem mapGet_none_not_mem_keys {β : Type} {k : requestID} {m : List (requestID × β)}
    (h : mapGet k m = none) : k ∉ m.map Prod.fst := by
  intro hmem
  obtain ⟨kv, hkv, hk⟩ := List.mem_map.mp hmem
  obtain ⟨k1, v⟩ := kv
  simp only at hk
  subst hk
  exact mapGet_none_not_mem h v hkv

theorem mapWF_filter {β : Type} {m : List (requestID × β)} (p : requestID × β → Bool)
    (h : mapWF m) : mapWF (m.filter p) :=
  List.Nodup.sublist (List.Sublist.map Prod.fst (List.filter_sublist m)) h

theorem markPending_keys (id : requestID) (m : List (requestID × EncodingResult)) :
    (markPending id m).map Prod.fst = m.map Prod.fst := by
  induction m with
  | nil => rfl
  | cons kv rest ih =>
    obtain ⟨k, r⟩ := kv
    rw [markPending_cons]
    split_ifs with h <;> simp [ih]

theorem footprintSum_markPending (id : requestID) (m : List (requestID × EncodingResult)) :
    footprintSum (markPending id m) = footprintSum m := by
  induction m with
  | nil => rfl
  | cons kv rest ih =>
    obtain ⟨k, r⟩ := kv
    rw [markPending_cons]
    split_ifs with h
    · rw [footprintSum_cons, footprintSum_cons, ih]
      rfl
    · rw [footprintSum_cons, footprintSum_cons, ih]

theorem footprintSum_mapDelete {k : requestID} {r : EncodingResult} {n : Nat} :
    ∀ (m : List (requestID × EncodingResult)) (t : Nat), mapWF m → mapGet k m = some r →
      getChunksSize r = some n → footprintSum m = some t →
      footprintSum (mapDelete k m) = some (t - n) ∧ n ≤ t := by
  intro m
  induction m with
  | nil => intro t _ h; simp [mapGet] at h
  | cons kv rest ih =>
    obtain ⟨k1, r1⟩ := kv
    intro t hwf hg hn ht
    simp only [mapWF, List.map_cons, List.nodup_cons] at hwf
    rw [footprintSum_cons] at ht
    cases hn1 : getChunksSize r1 with
    | none => simp [hn1] at ht
    | some n1 =>
      cases ht1 : footprintSum rest with
      | none => simp [hn1, ht1] at ht
      | some t1 =>
        simp only [hn1, ht1, Option.some.injEq] at ht
        rw [mapGet_cons] at hg
        rw [mapDelete_cons]
        split_ifs at hg ⊢ with h1
        · cases hg
          subst h1
          rw [hn1] at hn
          cases hn
          rw [mapDelete_of_not_mem_keys hwf.1, ht1]
          exact ⟨by congr 1; omega, by omega⟩
        · obtain ⟨h2, h3⟩ := ih t1 hwf.2 hg hn ht1
          rw [footprintSum_cons, hn1, h2]
          exact ⟨by simp only [Option.some.injEq]; omega, by omega⟩

theorem footprintSum_partition (p : requestID × EncodingResult → Bool) :
    ∀ (m : List (requestID × EncodingResult)) (t : Nat), footprintSum m = some t →
      ∃ a b, footprintSum (m.filter p) = some a
        ∧ footprintSum (m.filter (fun kr => !p kr)) = some b ∧ a + b = t := by
  intro m
  induction m with
  | nil =>
    intro t h
    simp only [footprintSum, Option.some.injEq] at h
    exact ⟨0, 0, rfl, rfl, by omega⟩
  | cons kv rest ih =>
    obtain ⟨k, r⟩ := kv
    intro t h
    rw [footprintSum_cons] at h
    cases hn : getChunksSize r with
    | none => simp [hn] at h
    | some n =>
      cases ht : footprintSum rest with
      | none => simp [hn, ht] at h
      | some t1 =>
        simp only [hn, ht, Option.some.injEq] at h
        obtain ⟨a, b, ha, hb, hab⟩ := ih t1 ht
        by_cases hp : p (k, r) = true
        · refine ⟨n + a, b, ?_, ?_, by omega⟩
          · rw [List.filter_cons_of_pos hp, footprintSum_cons, hn, ha]
          · rw [List.filter_cons_of_neg (by simp [hp])]
            exact hb
        · refine ⟨a, n + b, ?_, ?_, by omega⟩
          · rw [List.filter_cons_of_neg hp]
            exact ha
          · rw [List.filter_cons_of_pos (by simp [hp]), footprintSum_cons, hn, hb]

theorem footprintSum_mem {k : requestID} {r : EncodingResult} :
    ∀ (m : List (requestID × EncodingResult)) (t : Nat), footprintSum m = some t →
      (k, r) ∈ m → ∃ n, getChunksSize r = some n := by
  intro m
  induction m with
  | nil => intro t _ h; simp at h
  | cons kv rest ih =>
    obtain ⟨k1, r1⟩ := kv
    intro t ht hmem
    rw [footprintSum_cons] at ht
    cases hn1 : getChunksSize r1 with
    | none => simp [hn1] at ht
    | some n1 =>
      cases ht1 : footprintSum rest with
      | none => simp [hn1, ht1] at ht
      | some t1 =>
        rcases List.mem_cons.mp hmem with heq | h
        · cases heq
          exact ⟨n1, hn1⟩
        · exact ih t1 ht1 h

theorem accounted_delete {e : encodedBlobStore} {t : Nat} (h : accounted e t)
    (blobKey : BlobKey) (quorumID : Nat) :
    ∃ e1 t1, DeleteEncodingResult e blobKey quorumID = Outcome.ret e1 ()
      ∧ accounted e1 t1 ∧ t1 ≤ t := by
  obtain ⟨hwf, hsum, hsize⟩ := h
  cases hg : mapGet (getRequestID blobKey quorumID) e.encoded with
  | none =>
    exact ⟨e, t, by simp only [DeleteEncodingResult, hg], ⟨hwf, hsum, hsize⟩, Nat.le_refl _⟩
  | some r =>
    obtain ⟨n, hn⟩ := footprintSum_mem _ t hsum (mapGet_mem hg)
    obtain ⟨h1, h2⟩ := footprintSum_mapDelete _ t hwf hg hn hsum
    have hlt := getChunksSize_lt hn
    refine ⟨{ e with encoded := mapDelete (getRequestID blobKey quorumID) e.encoded,
                     encodedResultSize := subU64 e.encodedResultSize n }, t - n,
      by simp only [DeleteEncodingResult, hg, hn], ⟨mapWF_filter _ hwf, h1, ?_⟩,
      Nat.sub_le _ _⟩
    simp only []
    rw [hsize]
    unfold subU64
    norm_num at hlt ⊢
    omega

theorem accounted_sweep {e : encodedBlobStore} {t : Nat} (h : accounted e t) (b : Nat) :
    ∃ e1 fetched t1, GetNewAndDeleteStaleEncodingResults e b = Outcome.ret e1 fetched
      ∧ accounted e1 t1 ∧ t1 ≤ t := by
  obtain ⟨hwf, hsum, hsize⟩ := h
  obtain ⟨a, k, ha, hk, hak⟩ :=
    footprintSum_partition (fun kr => isStale b kr.2) e.encoded t hsum
  have hcounter : e.encodedResultSize < 2 ^ 64 := by
    rw [hsize]; exact Nat.mod_lt _ (by norm_num)
  refine ⟨_, _, k, sweep_eq hcounter ha, ⟨mapWF_filter _ hwf, hk, ?_⟩, by omega⟩
  simp only []
  rw [hsize]
  unfold subU64
  norm_num
  omega

theorem accounted_step {e e1 : encodedBlobStore} {t : Nat} {c : Call} (h : accounted e t)
    (hguard : ∀ result id, c = Call.putEncodingResult result →
      resultRequestID result = some id → id ∈ e.requested → mapGet id e.encoded = none)
    (hstep : step e c = some e1) : ∃ t1, accounted e1 t1 := by
  cases c with
  | putEncodingRequest blobKey quorumID =>
    simp only [step, Option.some.injEq] at hstep
    subst hstep
    exact ⟨t, h⟩
  | putEncodingResult result =>
    simp only [step, PutEncodingResult] at hstep
    cases hm : result.BlobMetadata with
    | none => simp [hm, Outcome.store] at hstep
    | some metadata =>
      cases hq : result.BlobQuorumInfo with
      | none => simp [hm, hq, Outcome.store] at hstep
      | some quorumInfo =>
        simp only [hm, hq] at hstep
        have hid : resultRequestID result = some (getRequestID
            { BlobHash := metadata.BlobHash, MetadataHash := metadata.MetadataHash }
            quorumInfo.QuorumID) := by
          simp only [resultRequestID, hm, hq]
        split_ifs at hstep with hin
        · have hg := hguard result _ rfl hid hin
          simp only [hg] at hstep
          cases hn : getChunksSize result with
          | none => simp [hn, Outcome.store] at hstep
          | some n =>
            simp only [hn, Outcome.store, Option.some.injEq] at hstep
            subst hstep
            obtain ⟨hwf, hsum, hsize⟩ := h
            refine ⟨n + t, ?_, ?_, ?_⟩
            · simp only [mapSet, mapDelete_of_mapGet_none hg, mapWF, List.map_cons,
                List.nodup_cons]
              exact ⟨mapGet_none_not_mem_keys hg, hwf⟩
            · simp only [mapSet, mapDelete_of_mapGet_none hg]
              rw [footprintSum_cons, hn, hsum]
            · simp only []
              rw [hsize]
              unfold addU64
              norm_num
              omega
        · simp only [Outcome.store, Option.some.injEq] at hstep
          subst hstep
          exact ⟨t, h⟩
  | deleteEncodingRequest blobKey quorumID =>
    simp only [step, DeleteEncodingRequest, Option.some.injEq] at hstep
    subst hstep
    refine ⟨t, ?_⟩
    split_ifs <;> exact h
  | deleteEncodingResult blobKey quorumID =>
    obtain ⟨e2, t2, hdel, hacc, _⟩ := accounted_delete h blobKey quorumID
    simp only [step, hdel, Outcome.store, Option.some.injEq] at hstep
    subst hstep
    exact ⟨t2, hacc⟩
  | markEncodedResultPendingConfirmation blobKey quorumID =>
    simp only [step, MarkEncodedResultPendingConfirmation, Option.some.injEq] at hstep
    cases hg : mapGet (getRequestID blobKey quorumID) e.encoded with
    | none =>
      simp only [hg] at hstep
      subst hstep
      exact ⟨t, h⟩
    | some old =>
      simp only [hg] at hstep
      subst hstep
      obtain ⟨hwf, hsum, hsize⟩ := h
      refine ⟨t, ?_, ?_, hsize⟩
      · simp only [mapWF, markPending_keys]
        exact hwf
      · simp only [footprintSum_markPending]
        exact hsum
  | getNewAndDeleteStaleEncodingResults blockNumber =>
    obtain ⟨e2, fetched, t2, hsw, hacc, _⟩ := accounted_sweep h blockNumber
    simp only [step, hsw, Outcome.store, Option.some.injEq] at hstep
    subst hstep
    exact ⟨t2, hacc⟩

theorem accounted_run :
    ∀ (cs : List Call) (e e1 : encodedBlobStore) (t : Nat), accounted e t →
      noOverwrite e cs = true → run e cs = some e1 → ∃ t1, accounted e1 t1 := by
  intro cs
  induction cs with
  | nil =>
    intro e e1 t h _ hrun
    simp only [run, Option.some.injEq] at hrun
    subst hrun
    exact ⟨t, h⟩
  | cons c cs ih =>
    intro e e1 t h hguard hrun
    simp only [run] at hrun
    simp only [noOverwrite, Bool.and_eq_true] at hguard
    cases hs : step e c with
    | none => simp [hs] at hrun
    | some e2 =>
      simp only [hs] at hrun hguard
      obtain ⟨t2, h2⟩ := accounted_step h (by
        intro result id hc hid hin
        subst hc
        have := hguard.1
        simp only [hid, Bool.or_eq_true, Bool.not_eq_true', decide_eq_false_iff_not,
          Option.isNone_iff_eq_none] at this
        rcases this with h3 | h3
        · exact absurd hin h3
        · exact h3) hs
      exact ih e2 e1 t2 h2 hguard.2 hrun


theorem accounted_exact {e e1 : encodedBlobStore} {t t1 : Nat} (h : accounted e t)
    (h1 : accounted e1 t1) (hle : t1 ≤ t) (hfit : t < 2 ^ 64) :
    t - t1 ≤ e.encodedResultSize
      ∧ e1.encodedResultSize = e.encodedResultSize - (t - t1) := by
  obtain ⟨_, _, hs⟩ := h
  obtain ⟨_, _, hs1⟩ := h1
  rw [hs, hs1, Nat.mod_eq_of_lt hfit, Nat.mod_eq_of_lt (Nat.lt_of_le_of_lt hle hfit)]
  omega

/-- C19: after every sequence of store operations from the empty store in which each
successful `PutEncodingResult` is issued for an identity without a stored result, every
stored footprint is defined and the counter is their sum `t` as a `uint64`, hence equal to
`t` whenever `t` fits in 64 bits; from such a state `DeleteEncodingResult` and the sweep
return, the sum `t1` of the footprints left is at most `t`, and (when `t` fits in 64 bits)
the footprints removed, `t - t1`, do not exceed the counter and the new counter is the old
one minus `t - t1` in the natural numbers, so no subtraction wraps below zero. -/
theorem accounting_without_overwrite (cs : List Call) (e : encodedBlobStore)
    (hguard : noOverwrite newEncodedBlobStore cs = true)
    (hrun : run newEncodedBlobStore cs = some e) :
    ∃ t, footprintSum e.encoded = some t
      ∧ e.encodedResultSize = t % 2 ^ 64
      ∧ (t < 2 ^ 64 → e.encodedResultSize = t)
      ∧ (∀ blobKey quorumID, ∃ e1 t1,
          DeleteEncodingResult e blobKey quorumID = Outcome.ret e1 ()
          ∧ footprintSum e1.encoded = some t1 ∧ t1 ≤ t
          ∧ (t < 2 ^ 64 → t - t1 ≤ e.encodedResultSize
              ∧ e1.encodedResultSize = e.encodedResultSize - (t - t1)))
      ∧ (∀ b, ∃ e1 fetched t1,
          GetNewAndDeleteStaleEncodingResults e b = Outcome.ret e1 fetched
          ∧ footprintSum e1.encoded = some t1 ∧ t1 ≤ t
          ∧ (t < 2 ^ 64 → t - t1 ≤ e.encodedResultSize
              ∧ e1.encodedResultSize = e.encodedResultSize - (t - t1))) := by
  have h0 : accounted newEncodedBlobStore 0 :=
    ⟨by simp [mapWF, newEncodedBlobStore], rfl, rfl⟩
  obtain ⟨t, h⟩ := accounted_run cs newEncodedBlobStore e 0 h0 hguard hrun
  refine ⟨t, h.2.1, h.2.2, ?_, ?_, ?_⟩
  · intro hfit
    rw [h.2.2, Nat.mod_eq_of_lt hfit]
  · intro blobKey quorumID
    obtain ⟨e1, t1, hdel, h1, hle⟩ := accounted_delete h blobKey quorumID
    exact ⟨e1, t1, hdel, h1.2.1, hle, accounted_exact h h1 hle⟩
  · intro b
    obtain ⟨e1, fetched, t1, hsw, h1, hle⟩ := accounted_sweep h b
    exact ⟨e1, fetched, t1, hsw, h1.2.1, hle, accounted_exact h h1 hle⟩

/-- Witness of `accounting_without_overwrite`: results for `(a, 0)` and `(b, 0)` are
requested and stored, `(a, 0)` is marked and the store is swept at block 10. -/
theorem accounting_without_overwrite_witness :
    noOverwrite newEncodedBlobStore
        [Call.putEncodingRequest keyA 0, Call.putEncodingResult (sampleResult keyA 5 [1]),
         Call.putEncodingRequest keyB 0, Call.putEncodingResult (sampleResult keyB 7 [2]),
         Call.markEncodedResultPendingConfirmation keyA 0,
         Call.getNewAndDeleteStaleEncodingResults 10] = true
      ∧ run newEncodedBlobStore
        [Call.putEncodingRequest keyA 0, Call.putEncodingResult (sampleResult keyA 5 [1]),
         Call.putEncodingRequest keyB 0, Call.putEncodingResult (sampleResult keyB 7 [2]),
         Call.markEncodedResultPendingConfirmation keyA 0,
         Call.getNewAndDeleteStaleEncodingResults 10]
        = some { requested := [], encoded := [("a-m-0", confirmedResult)],
                 encodedResultSize := 768 }
      ∧ footprintSum [("a-m-0", confirmedResult)] = some 768
      ∧ ∃ t, footprintSum [("a-m-0", confirmedResult)] = some t
          ∧ 768 = t % 2 ^ 64
          ∧ (t < 2 ^ 64 → 768 = t)
          ∧ (∀ blobKey quorumID, ∃ e1 t1,
              DeleteEncodingResult
                  { requested := [], encoded := [("a-m-0", confirmedResult)],
                    encodedResultSize := 768 } blobKey quorumID = Outcome.ret e1 ()
              ∧ footprintSum e1.encoded = some t1 ∧ t1 ≤ t
              ∧ (t < 2 ^ 64 → t - t1 ≤ 768 ∧ e1.encodedResultSize = 768 - (t - t1)))
          ∧ (∀ b, ∃ e1 fetched t1,
              GetNewAndDeleteStaleEncodingResults
                  { requested := [], encoded := [("a-m-0", confirmedResult)],
                    encodedResultSize := 768 } b = Outcome.ret e1 fetched
              ∧ footprintSum e1.encoded = some t1 ∧ t1 ≤ t
              ∧ (t < 2 ^ 64 → t - t1 ≤ 768 ∧ e1.encodedResultSize = 768 - (t - t1))) :=
  ⟨by decide, by decide, by decide,
    accounting_without_overwrite
      [Call.putEncodingRequest keyA 0, Call.putEncodingResult (sampleResult keyA 5 [1]),
       Call.putEncodingRequest keyB 0, Call.putEncodingResult (sampleResult keyB 7 [2]),
       Call.markEncodedResultPendingConfirmation keyA 0,
       Call.getNewAndDeleteStaleEncodingResults 10]
      { requested := [], encoded := [("a-m-0", confirmedResult)], encodedResultSize := 768 }
      (by decide) (by decide)⟩

/-! ## Post-state of the sweep -/

/-- C20: for every store (with a `uint64` counter and defined footprints of its stale
results) and every block number `b`, the sweep returns a store in which no result is pending
dispersal with a reference block below `b`; the in-flight set is unchanged; the bindings of
the old store are exactly the retained bindings, unmodified, together with the removed
ones; the counter is the old counter minus the sum of the footprints of the removed results;
and a second sweep at `b` returns the very same store. -/
theorem sweep_post_state (e : encodedBlobStore) (b total : Nat)
    (hcounter : e.encodedResultSize < 2 ^ 64)
    (hsize : footprintSum (e.encoded.filter (fun kr => isStale b kr.2)) = some total) :
    ∃ e1 fetched removed,
      GetNewAndDeleteStaleEncodingResults e b = Outcome.ret e1 fetched
      ∧ (∀ kr ∈ e1.encoded,
          ¬ (kr.2.Status = status.PendingDispersal ∧ kr.2.ReferenceBlockNumber < b))
      ∧ e1.requested = e.requested
      ∧ e.encoded.Perm (e1.encoded ++ removed)
      ∧ (∀ kr ∈ e1.encoded, kr ∈ e.encoded)
      ∧ footprintSum removed = some total
      ∧ e1.encodedResultSize = subU64 e.encodedResultSize total
      ∧ ∃ fetched2, GetNewAndDeleteStaleEncodingResults e1 b = Outcome.ret e1 fetched2 := by
  have h2 := @sweep_eq
    { e with encoded := e.encoded.filter (fun kr => !isStale b kr.2),
             encodedResultSize := subU64 e.encodedResultSize total } b 0
    (subU64_lt _ _) (by
      simp only [filter_stale_of_not_stale]
      rfl)
  simp only [filter_not_stale_idem, subU64_zero (subU64_lt _ _)] at h2
  refine ⟨_, _, e.encoded.filter (fun kr => isStale b kr.2), sweep_eq hcounter hsize, ?_, rfl,
    ?_, ?_, hsize, rfl, _, h2⟩
  · intro kr hkr
    have := (List.mem_filter.mp hkr).2
    simp only [isStale, Bool.not_eq_true', Bool.and_eq_false_imp, decide_eq_true_eq,
      decide_eq_false_iff_not] at this
    intro hboth
    exact this hboth.1 hboth.2
  · have := List.filter_append_perm (fun kr : requestID × EncodingResult => !isStale b kr.2)
      e.encoded
    simpa using this.symm
  · intro kr hkr
    exact (List.mem_filter.mp hkr).1

/-- Witness of `sweep_post_state`: the four-result store swept at block 10. -/
theorem sweep_post_state_witness :
    sweepExample.encodedResultSize < 2 ^ 64
      ∧ footprintSum (sweepExample.encoded.filter (fun kr => isStale 10 kr.2)) = some 768
      ∧ ∃ e1 fetched removed,
          GetNewAndDeleteStaleEncodingResults sweepExample 10 = Outcome.ret e1 fetched
          ∧ (∀ kr ∈ e1.encoded,
              ¬ (kr.2.Status = status.PendingDispersal ∧ kr.2.ReferenceBlockNumber < 10))
          ∧ e1.requested = sweepExample.requested
          ∧ sweepExample.encoded.Perm (e1.encoded ++ removed)
          ∧ (∀ kr ∈ e1.encoded, kr ∈ sweepExample.encoded)
          ∧ footprintSum removed = some 768
          ∧ e1.encodedResultSize = subU64 sweepExample.encodedResultSize 768
          ∧ ∃ fetched2, GetNewAndDeleteStaleEncodingResults e1 10 = Outcome.ret e1 fetched2 :=
  ⟨by decide, by decide, sweep_post_state sweepExample 10 768 (by decide) (by decide)⟩


end Batcher
